import Mathlib

/-!
# Verification of the windy kernel memory subsystem

Shallow embedding, in Lean 4, of the memory subsystem of the `windy`
RISC-V kernel: the physical-range set (`crates/kernel/src/mem/rangeset.rs`),
the buddy page allocator (`crates/kernel/src/pmem/alloc/buddy.rs`), the
Sv39 page-table mapper (`crates/kernel/src/page/sv39.rs`) and the
flattened-device-tree reader (`crates/windy_devicetree/src/tree.rs`).

Machine integers (`usize`/`u64`) are modelled as `Nat` with explicit
saturating / masking arithmetic at the points where the Rust source uses
`saturating_add`, `saturating_sub` or bit masks.  Fallible operations
(Rust `Result`, index-out-of-bounds and `unwrap` panics) are modelled
with `Except`.  Loops whose termination is not structural are given an
explicit fuel parameter together with a distinguished `fuelOut` error,
so that fuel exhaustion is observable and never silently conflated with
the program's own error paths.
-/

namespace Windy

/-- Model of `usize::MAX` for the 64-bit target. -/
def USIZE_MAX : Nat := 2 ^ 64 - 1

/-- Model of `usize::saturating_add` (Nat model; saturates at `USIZE_MAX`). -/
def satAdd (a b : Nat) : Nat := min (a + b) USIZE_MAX

/-! `usize::saturating_sub` is exactly truncated subtraction on `Nat`,
so `Nat.sub` is used for it throughout. -/

/-! ## Buddy allocator — `crates/kernel/src/pmem/alloc/buddy.rs`

The allocator keeps an array of `ORDER_COUNT` intrusive free lists
(`crates/kernel/src/pmem/linked_list.rs`, revision also present as
`src/mem/linked_list.rs`).  A free list threads one machine word through
each free block, so observationally it is a LIFO list of block
addresses: `push` prepends, `pop` removes the head, and
`iter_mut().find(..)` followed by `ListNode::pop` removes the first node
whose address matches.  We model each list as a `List Nat` of block
addresses with exactly those operations. -/

/-- Model of `PAGE_SIZE` (`crates/kernel/src/pmem/alloc.rs`). -/
def PAGE_SIZE : Nat := 4 * 1024

/-- Model of `MAX_ORDER` (inclusive). -/
def MAX_ORDER : Nat := 14

/-- Model of `ORDER_COUNT = MAX_ORDER + 1`. -/
def ORDER_COUNT : Nat := MAX_ORDER + 1

/-- Model of `size_for_order`: `(1 << order) * PAGE_SIZE`. -/
def size_for_order (order : Nat) : Nat := (1 <<< order) * PAGE_SIZE

/-- Errors of `crates/kernel/src/pmem/alloc.rs`, plus `indexPanic`
modelling a Rust index-out-of-bounds panic, plus `fuelOut` for fuel
exhaustion of the model (never reachable on the inputs we consider). -/
inductive AllocError where
  | regionTooSmall
  | invalidRegion
  | orderTooLarge
  | noMemoryAvailable
  | allocateZeroPages
  | nullPointer
  | indexPanic
  | fuelOut
deriving DecidableEq, Repr

/-- Model of `BuddyAllocator`: the 15 per-order free lists and the
`AllocStats` fields used by the claims (`name` is omitted: it is a
constant string). -/
structure BuddyAllocator where
  orders : List (List Nat)
  free : Nat
  allocated : Nat
  total : Nat
deriving DecidableEq, Repr

namespace BuddyAllocator

/-- Model of `BuddyAllocator::new`. -/
def new : BuddyAllocator :=
  { orders := List.replicate ORDER_COUNT [], free := 0, allocated := 0, total := 0 }

/-- Read the free list of one order (`self.orders[order]`). -/
def ordersGet (b : BuddyAllocator) (order : Nat) : List Nat :=
  b.orders.getD order []

/-- Write the free list of one order. -/
def ordersSet (b : BuddyAllocator) (order : Nat) (l : List Nat) : BuddyAllocator :=
  { b with orders := b.orders.set order l }

/-- Model of `align_up(addr, align)` (`crates/kernel/src/pmem/alloc.rs`):
`(addr + align - 1) & !(align - 1)`.  For a power-of-two `align` and no
`u64` overflow this equals rounding up to the next multiple. -/
def align_up (addr align : Nat) : Nat := ((addr + align - 1) / align) * align

/-- The order-search loop of `add_single_region`: starting from order 0,
increase the order while `order < MAX_ORDER` and the size of the *next*
order still fits before `end` (`checked_add` cannot overflow in the
`Nat` model below `USIZE_MAX`; the model keeps the explicit bound).
The `fuel` argument is `MAX_ORDER` at top level, which is exactly the
maximum number of iterations of the `while order < MAX_ORDER` loop. -/
def chooseOrder : Nat → Nat → Nat → Nat → Nat
  | 0, order, _, _ => order
  | fuel + 1, order, start, stop =>
    if order < MAX_ORDER then
      let size := size_for_order (order + 1)
      -- `checked_add` then `new_end <= end`
      if start + size ≤ USIZE_MAX ∧ start + size ≤ stop then
        chooseOrder fuel (order + 1) start stop
      else
        order
    else
      order

/-- Model of `add_single_region`: pick the order, `NonNull::new` the pointer
(`NullPointer` if zero) and push the block on that order's list. -/
def add_single_region (b : BuddyAllocator) (start stop : Nat) :
    Except AllocError (BuddyAllocator × Nat) :=
  let order := chooseOrder MAX_ORDER 0 start stop
  if start = 0 then .error .nullPointer
  else .ok (b.ordersSet order (start :: b.ordersGet order), order)

/-- The `while (end - start) >= PAGE_SIZE` loop of `add_region`.
Each iteration enrols one block and advances `start` by its size, so
the iteration count is bounded by `(stop - start) / PAGE_SIZE`; the
fuel passed by `add_region` covers every input below `USIZE_MAX`. -/
def addRegionLoop : Nat → BuddyAllocator → Nat → Nat → Nat →
    Except AllocError (BuddyAllocator × Nat)
  | 0, _, _, _, _ => .error .fuelOut
  | fuel + 1, b, start, stop, total =>
    if stop - start ≥ PAGE_SIZE then
      match b.add_single_region start stop with
      | .error e => .error e
      | .ok (b', order) =>
        let size := size_for_order order
        addRegionLoop fuel b' (start + size) stop (total + size)
    else
      .ok (b, total)

/-- Model of `BuddyAllocator::add_region`.  Word-aligns `start`, rejects regions
smaller than one page (`stop - start` is `saturating_sub`) and regions
with `end < start`, then enrols blocks greedily and updates the
statistics with the number of bytes actually added. -/
def add_region (b : BuddyAllocator) (start stop : Nat) :
    Except AllocError (BuddyAllocator × Nat) :=
  let start := align_up start 8
  if stop - start < PAGE_SIZE then .error .regionTooSmall
  else if stop < start then .error .invalidRegion
  else
    match addRegionLoop (stop / PAGE_SIZE + 1) b start stop 0 with
    | .error e => .error e
    | .ok (b', total) =>
      .ok ({ b' with total := b'.total + total, free := b'.free + total }, total)

/-- One splitting chain of `allocate`'s slow path: the inner
`for order_to_split in (order + 1..split_idx + 1).rev()` loop.  The
argument `ots` runs over that reversed range. -/
def splitChain (b : BuddyAllocator) : List Nat → Except AllocError BuddyAllocator
  | [] => .ok b
  | ots :: rest =>
    match b.ordersGet ots with
    | [] => .error .nullPointer   -- `.pop().ok_or(Error::NullPointer)?`
    | block :: tail =>
      let b₁ := b.ordersSet ots tail
      let target_order := ots - 1
      let buddy_addr := block + size_for_order target_order
      -- `target.push(block); target.push(buddy_addr)`
      let b₂ := b₁.ordersSet target_order (block :: b₁.ordersGet target_order)
      if buddy_addr = 0 then .error .nullPointer
      else
        let b₃ := b₂.ordersSet target_order (buddy_addr :: b₂.ordersGet target_order)
        splitChain b₃ rest

/-- The outer `for split_idx in 0..self.orders.len()` loop of
`allocate`'s slow path. -/
def slowLoop (b : BuddyAllocator) (order : Nat) : List Nat → Except AllocError BuddyAllocator
  | [] => .ok b
  | split_idx :: rest =>
    if b.ordersGet split_idx = [] then slowLoop b order rest
    else
      let range := (List.range' (order + 1) (split_idx + 1 - (order + 1))).reverse
      match splitChain b range with
      | .error e => .error e
      | .ok b' => slowLoop b' order rest

/-- Model of `BuddyAllocator::allocate`.  Returns the block address together
with its length and the new allocator state. -/
def allocate (b : BuddyAllocator) (order : Nat) :
    Except AllocError (Nat × Nat × BuddyAllocator) :=
  if order > MAX_ORDER then .error .orderTooLarge
  else
    match b.ordersGet order with
    | block :: tail =>
      -- fast path
      let b₁ := b.ordersSet order tail
      let size := size_for_order order
      .ok (block, size,
        { b₁ with free := b₁.free - size, allocated := satAdd b₁.allocated size })
    | [] =>
      match slowLoop b order (List.range ORDER_COUNT) with
      | .error e => .error e
      | .ok b₁ =>
        match b₁.ordersGet order with
        | [] => .error .noMemoryAvailable
        | block :: tail =>
          let b₂ := b₁.ordersSet order tail
          let size := size_for_order order
          .ok (block, size,
            { b₂ with free := b₂.free - size, allocated := satAdd b₂.allocated size })

/-- The merge loop of `deallocate`: `for target_order in order + 1 ..
self.orders.len()` with the mutable `ptr` and `order` threaded through.
The state is `(allocator, ptr, order)`; the result also reports the
final value of `order`, which the source uses for the statistics
update. -/
def deallocLoop (b : BuddyAllocator) (ptr order : Nat) :
    List Nat → Except AllocError (BuddyAllocator × Nat)
  | [] => .ok (b, order)
  | target_order :: rest =>
    let buddy_addr := ptr ^^^ size_for_order order
    if buddy_addr ∈ b.ordersGet order then
      -- `buddy.pop()`: remove the first matching node
      let b₁ := b.ordersSet order ((b.ordersGet order).erase buddy_addr)
      -- `NonNull::new(ptr).ok_or(NullPointer)?`
      if ptr = 0 then .error .nullPointer
      else
        let b₂ := b₁.ordersSet target_order (ptr :: b₁.ordersGet target_order)
        deallocLoop b₂ (min buddy_addr ptr) (order + 1) rest
    else
      .ok (b, order)   -- `break`

/-- Model of `BuddyAllocator::deallocate`.  Pushes the block on its order's free
list first, then tries to merge buddies upwards; the statistics are
updated with `size_for_order` of the *final* order. -/
def deallocate (b : BuddyAllocator) (ptr order : Nat) :
    Except AllocError BuddyAllocator :=
  if order ≥ ORDER_COUNT then .error .indexPanic   -- `self.orders[order]` would panic
  else
    let b₁ := b.ordersSet order (ptr :: b.ordersGet order)
    match deallocLoop b₁ ptr order (List.range' (order + 1) (ORDER_COUNT - (order + 1))) with
    | .error e => .error e
    | .ok (b₂, order') =>
      let size := size_for_order order'
      .ok { b₂ with free := satAdd b₂.free size, allocated := b₂.allocated - size }

end BuddyAllocator

/-! ## Range set — `crates/kernel/src/mem/rangeset.rs`

A `RangeSet` is a fixed array of `RANGE_COUNT = 32` inclusive ranges
plus a live count `idx`; only `ranges[0..idx]` is live, but the
*stale* slots beyond `idx` are still read by `merge_blocks`'s loop
(whose bound is captured before the removals), so the model keeps the
whole 32-slot array as a `List` of length 32. -/

/-- Model of `RANGE_COUNT`. -/
def RANGE_COUNT : Nat := 32

/-- Model of `Range` (inclusive).  The source's field `end` is called `stop`
here because `end` is a Lean keyword. -/
structure RSRange where
  start : Nat
  stop : Nat
deriving DecidableEq, Repr

/-- Model of `rangeset::Error`, plus `panicOOB` modelling the
`self.remove(idx).unwrap()` panic and the `self.ranges[self.idx]`
index-out-of-bounds panic, plus `fuelOut` for model-fuel exhaustion. -/
inductive RSError where
  | invalidRange
  | outOfBounds
  | panicOOB
  | fuelOut
deriving DecidableEq, Repr

/-- Model of `rangeset::overlaps`. -/
def rsOverlaps (a b : RSRange) : Bool := a.start ≤ b.stop && b.start ≤ a.stop

/-- Model of `rangeset::contains`: whether all of `a` fits inside `b`. -/
def rsContains (a b : RSRange) : Bool := a.start ≥ b.start && a.stop ≤ b.stop

/-- The overlap-or-adjacent test of `merge_blocks`: both ranges get
their `end` expanded by one (`saturating_add`) before the overlap
test. -/
def touches (r other : RSRange) : Bool :=
  rsOverlaps ⟨r.start, satAdd r.stop 1⟩ ⟨other.start, satAdd other.stop 1⟩

/-- Model of `RangeSet`: the raw 32-slot array and the live count. -/
structure RangeSet where
  ranges : List RSRange
  idx : Nat
deriving DecidableEq, Repr

namespace RangeSet

/-- Model of `RangeSet::new`: 32 zero ranges, `idx = 0`. -/
def new : RangeSet := ⟨List.replicate RANGE_COUNT ⟨0, 0⟩, 0⟩

/-- Raw array read `self.ranges[i]` (i is always `< 32` at the Rust
call sites that we model; stale slots *are* reachable). -/
def getRange (s : RangeSet) (i : Nat) : RSRange := s.ranges.getD i ⟨0, 0⟩

/-- Raw array write `self.ranges[i] = r`. -/
def setRange (s : RangeSet) (i : Nat) (r : RSRange) : RangeSet :=
  { s with ranges := s.ranges.set i r }

/-- Model of `RangeSet::remove`: bounds check against the live count, then
`self.ranges[idx..].rotate_left(1)` (the removed range moves to slot
31, everything after it shifts down one) and `idx -= 1`. -/
def removeAt (s : RangeSet) (i : Nat) : Except RSError RangeSet :=
  if i ≥ s.idx then .error .outOfBounds
  else .ok ⟨s.ranges.take i ++ s.ranges.drop (i + 1) ++ [s.getRange i], s.idx - 1⟩

/-- The loop of `merge_blocks`, including the recursive call back into
`merge_blocks` after each removal.  `i` is the loop variable, `bound`
the value of `self.idx` captured when the `for` loop started (it is
*not* re-read after removals — stale slots can be read).  A failing
`remove` is `.unwrap()`ed by the source, hence `.panicOOB`.  Fuel
decreases on every call edge; `mergeLoop_enough_fuel` below shows the
top-level fuel of `insert` can never run out. -/
def mergeLoop : Nat → RangeSet → RSRange → Nat → Nat → Except RSError (RangeSet × RSRange)
  | 0, _, _, _, _ => .error .fuelOut
  | fuel + 1, s, r, i, bound =>
    if i ≥ bound then .ok (s, r)
    else
      let other := s.getRange i
      if touches r other then
        let r' : RSRange := ⟨min r.start other.start, max r.stop other.stop⟩
        match s.removeAt i with
        | .error _ => .error .panicOOB
        | .ok s₁ =>
          -- `self.merge_blocks(range)` — re-enters the loop from 0
          match mergeLoop fuel s₁ r' 0 s₁.idx with
          | .error e => .error e
          | .ok (s₂, r₂) => mergeLoop fuel s₂ r₂ (i + 1) bound
      else
        mergeLoop fuel s r (i + 1) bound

/-- Fuel passed to `mergeLoop` by `insert`; ample (see
`mergeLoop_enough_fuel`). -/
def INSERT_FUEL : Nat := 4096

/-- Model of `RangeSet::insert`: validity check, `merge_blocks`, then the final
`self.ranges[self.idx] = range; self.idx += 1` (an index panic if the
array is full). -/
def insert (s : RangeSet) (r : RSRange) : Except RSError RangeSet :=
  if r.start > r.stop then .error .invalidRange
  else
    match mergeLoop INSERT_FUEL s r 0 s.idx with
    | .error e => .error e
    | .ok (s₁, r₁) =>
      if s₁.idx ≥ RANGE_COUNT then .error .panicOOB
      else .ok ⟨s₁.ranges.set s₁.idx r₁, s₁.idx + 1⟩

/-- The loop of `remove_inner`, including the recursive calls.  The
`contains` arm removes the range and restarts (`return` after the
recursive call); the two trim arms update in place and continue; the
split arm appends the upper half (`[range.start + 1, other.end]`,
note: the source really uses `range.start`, the recursion trims it
afterwards), trims the lower half and restarts, then continues the
loop. -/
def removeLoop : Nat → RangeSet → RSRange → Nat → Nat → Except RSError RangeSet
  | 0, _, _, _, _ => .error .fuelOut
  | fuel + 1, s, r, i, bound =>
    if i ≥ bound then .ok s
    else
      let other := s.getRange i
      if ¬rsOverlaps r other then removeLoop fuel s r (i + 1) bound
      else if rsContains other r then
        match s.removeAt i with
        | .error _ => .error .panicOOB   -- `.unwrap()`
        | .ok s₁ =>
          -- `self.remove_inner(range); return`
          removeLoop fuel s₁ r 0 s₁.idx
      else if r.start ≤ other.start then
        removeLoop fuel (s.setRange i ⟨satAdd r.stop 1, other.stop⟩) r (i + 1) bound
      else if r.stop ≥ other.stop then
        removeLoop fuel (s.setRange i ⟨other.start, r.start - 1⟩) r (i + 1) bound
      else
        -- split: `self.ranges[self.idx] = new_range` (panics if full)
        if s.idx ≥ RANGE_COUNT then .error .panicOOB
        else
          let newRange : RSRange := ⟨satAdd r.start 1, other.stop⟩
          let s₁ : RangeSet := ⟨s.ranges.set s.idx newRange, s.idx + 1⟩
          let s₂ := s₁.setRange i ⟨other.start, r.start - 1⟩
          -- `self.remove_inner(range)`, then the loop continues
          match removeLoop fuel s₂ r 0 s₂.idx with
          | .error e => .error e
          | .ok s₃ => removeLoop fuel s₃ r (i + 1) bound

/-- Fuel passed to `removeLoop` by `remove_range`. -/
def REMOVE_FUEL : Nat := 4096

/-- Model of `RangeSet::remove_range`. -/
def removeRange (s : RangeSet) (r : RSRange) : Except RSError RangeSet :=
  if r.start > r.stop then .error .invalidRange
  else removeLoop REMOVE_FUEL s r 0 s.idx

/-- The live ranges, `RangeSet::as_slice`. -/
def asSlice (s : RangeSet) : List RSRange := s.ranges.take s.idx

/-- Fold `insert` over a list of ranges, starting from a given set. -/
def insertAll (s : RangeSet) : List RSRange → Except RSError RangeSet
  | [] => .ok s
  | r :: rs =>
    match s.insert r with
    | .error e => .error e
    | .ok s₁ => insertAll s₁ rs

end RangeSet

/-- Membership of an address in an inclusive range. -/
def inRange (x : Nat) (r : RSRange) : Prop := r.start ≤ x ∧ x ≤ r.stop

/-- Membership of an address in the union of the live ranges of a set. -/
def inSet (x : Nat) (s : RangeSet) : Prop := ∃ r ∈ s.asSlice, inRange x r

/-- Index-based membership in the live ranges (equivalent to `inSet`
when `idx` is within the array, see `liveMem_iff_inSet`). -/
def liveMem (x : Nat) (s : RangeSet) : Prop :=
  ∃ j, j < s.idx ∧ inRange x (s.getRange j)

/-- Every live range is a valid `u64` range (`start ≤ end`,
`end ≤ usize::MAX`). -/
def LiveValid (s : RangeSet) : Prop :=
  ∀ j, j < s.idx → (s.getRange j).start ≤ (s.getRange j).stop ∧
    (s.getRange j).stop ≤ USIZE_MAX

/-- No two distinct live ranges overlap or are adjacent (the
`merge_blocks` touch test is false between them). -/
def PairwiseNT (s : RangeSet) : Prop :=
  ∀ j k, j < s.idx → k < s.idx → j ≠ k →
    touches (s.getRange j) (s.getRange k) = false

/-! ## Sv39 mapper — `crates/kernel/src/page/sv39.rs`

A `Table` is 512 raw 64-bit entries.  The mapper walks tables through
raw physical pointers; the model makes the physical placement explicit:
the root table lives at `rootAddr` (a static in `.bss`), every interior
table lives in `mem`, an association list from physical address to
table, and `pmem::zalloc` / `pmem::dealloc` are modelled by a `supply`
list of fresh page addresses and a `freed` list of released page
addresses.  Following a branch whose target is not a table of `mem`
would be a wild-pointer dereference in the source; the model returns
`none` / an error in that case (such states are excluded by the
well-formedness predicate `WF` below). -/

/-- Model of `PageSize` (`crates/kernel/src/page/types.rs`). -/
inductive PageSize where
  | kilopage
  | megapage
  | gigapage
deriving DecidableEq, Repr

namespace PageSize

/-- Model of `PageSize::size`. -/
def size : PageSize → Nat
  | .kilopage => 4 * 1024
  | .megapage => 2 * 1024 * 1024
  | .gigapage => 1024 * 1024 * 1024

/-- Model of `PageSize::is_aligned`. -/
def is_aligned (s : PageSize) (addr : Nat) : Bool := addr % s.size == 0

end PageSize

/-- A `Perm` value is a 3-bit flag set; the model carries the raw
bits (`u8` masked to `0b111`, as every `Perm` constructor does). -/
def permBits (p : Nat) : Nat := p % 8

/-- Model of `page::Error` (`crates/kernel/src/page.rs`), with the allocation
error nested as in the source's `Page::Alloc(inner)`, plus `wildPointer`
for a branch entry whose target is not a live table (a wild dereference
in the source, unreachable from well-formed states). -/
inductive PageError where
  | unalignedAddress
  | rangeTooSmall
  | alreadyMapped
  | alloc (inner : AllocError)
  | wildPointer
deriving DecidableEq, Repr

/-- A page table: 512 raw 64-bit entries. -/
structure Tbl where
  entries : List Nat
deriving DecidableEq, Repr

namespace Tbl

/-- Model of `Table::new`: all entries `Entry::EMPTY = 0`. -/
def new : Tbl := ⟨List.replicate 512 0⟩

/-- Model of `self.entries[i]`. -/
def get (t : Tbl) (i : Nat) : Nat := t.entries.getD i 0

/-- Model of `self.entries[i].set(v)`. -/
def set (t : Tbl) (i : Nat) (v : Nat) : Tbl := ⟨t.entries.set i v⟩

end Tbl

namespace Entry

/-- Model of `Entry::valid`: bit 0. -/
def valid (e : Nat) : Bool := e % 2 == 1

/-- Model of `Entry::perm`: bits 1..3 (`(self.0 >> 1) & 0b111`). -/
def perm (e : Nat) : Nat := (e >>> 1) % 8

/-- Model of `Entry::branch`: valid and all permission bits zero. -/
def branch (e : Nat) : Bool := perm e == 0 && valid e

/-- Model of `Entry::ppn` as a physical address:
`((raw >> 10) & 0x0FFF_FFFF_FFFF) << 12`. -/
def ppn (e : Nat) : Nat := ((e >>> 10) % 2 ^ 44) <<< 12

end Entry

/-- Model of `EntryKind` — result of `Entry::kind` (`None` = invalid entry). -/
inductive EntryKind where
  | branch (next : Nat)
  | leaf
deriving DecidableEq, Repr

/-- Model of `Entry::kind`. -/
def entryKind (e : Nat) : Option EntryKind :=
  if Entry.valid e then
    if Entry.perm e == 0 then some (.branch (Entry.ppn e)) else some .leaf
  else
    none

/-- Model of `vpns_of_vaddr`. -/
def vpns_of_vaddr (v : Nat) : Nat × Nat × Nat :=
  ((v >>> 12) % 512, (v >>> 21) % 512, (v >>> 30) % 512)

/-- Model of `ppn_of_paddr`: `(paddr >> 12) & 0x0FFF_FFFF_FFFF`. -/
def ppn_of_paddr (p : Nat) : Nat := (p >>> 12) % 2 ^ 44

/-- Which table a walk step landed in: the root table, or the interior
table at a physical address. -/
inductive Loc where
  | root
  | tbl (addr : Nat)
deriving DecidableEq, Repr

/-- The mapper state: the root table (a static, at physical address
`rootAddr`), the interior tables with their physical addresses, the
supply of pages `pmem::zalloc` will hand out next (in order), and the
pages handed back to `pmem::dealloc`. -/
structure St where
  rootAddr : Nat
  root : Tbl
  mem : List (Nat × Tbl)
  supply : List Nat
  freed : List Nat
deriving DecidableEq, Repr

namespace St

/-- Dereference an interior-table physical address. -/
def memGet : List (Nat × Tbl) → Nat → Option Tbl
  | [], _ => none
  | (k, t) :: rest, a => if k = a then some t else memGet rest a

/-- Overwrite the table stored at an address (no-op if absent). -/
def memSet : List (Nat × Tbl) → Nat → Tbl → List (Nat × Tbl)
  | [], _, _ => []
  | (k, t) :: rest, a, t' => if k = a then (k, t') :: rest else (k, t) :: memSet rest a t'

/-- Read the table at a `Loc`. -/
def getTbl (st : St) : Loc → Option Tbl
  | .root => some st.root
  | .tbl a => memGet st.mem a

/-- Write one entry of the table at a `Loc` (no-op on a dangling
address, which never happens from well-formed states). -/
def setEntry (st : St) (loc : Loc) (i v : Nat) : St :=
  match loc with
  | .root => { st with root := st.root.set i v }
  | .tbl a =>
    match memGet st.mem a with
    | none => st
    | some t => { st with mem := memSet st.mem a (t.set i v) }

/-- Model of `get_next_level` for the entry `i` of the table at `loc`: returns
the address of the next-level table, allocating and linking a
zero-initialised page (`pmem::zalloc`) when the entry is invalid.
`AlreadyMapped` when the entry is a leaf. -/
def get_next_level (st : St) (loc : Loc) (i : Nat) : Except PageError (St × Nat) :=
  match st.getTbl loc with
  | none => .error .wildPointer
  | some t =>
    match entryKind (t.get i) with
    | none =>
      match st.supply with
      | [] => .error (.alloc .noMemoryAvailable)
      | a :: rest =>
        -- `entry.set((ppn << 10) | Entry::VALID)`
        let e := (ppn_of_paddr a <<< 10) ||| 1
        let st₁ := { st with supply := rest, mem := (a, Tbl.new) :: st.mem }
        .ok (st₁.setEntry loc i e, a)
    | some (.branch next) => .ok (st, next)
    | some .leaf => .error .alreadyMapped

/-- Model of `Table::map`.  The final entry is written as
`(ppn << 10) | (perm << 1) | VALID` with *no* inspection of its
previous contents (the source's doc-comment: "this method will
overwrite any pre-existing mapping"). -/
def map (st : St) (paddr vaddr : Nat) (size : PageSize) (perm : Nat) :
    Except PageError St :=
  if ¬(size.is_aligned paddr ∧ size.is_aligned vaddr) then .error .unalignedAddress
  else
    let (v0, v1, v2) := vpns_of_vaddr vaddr
    let newEntry := (ppn_of_paddr paddr <<< 10) ||| (permBits perm <<< 1) ||| 1
    match size with
    | .gigapage => .ok (st.setEntry .root v2 newEntry)
    | .megapage =>
      match st.get_next_level .root v2 with
      | .error e => .error e
      | .ok (st₁, a₁) => .ok (st₁.setEntry (.tbl a₁) v1 newEntry)
    | .kilopage =>
      match st.get_next_level .root v2 with
      | .error e => .error e
      | .ok (st₁, a₁) =>
        match st₁.get_next_level (.tbl a₁) v1 with
        | .error e => .error e
        | .ok (st₂, a₂) => .ok (st₂.setEntry (.tbl a₂) v0 newEntry)

/-- Model of `Table::entry` / `Table::entry_mut`: walk to the first leaf,
returning the containing table's location, the entry index, its raw
value and the page size of the leaf level.  `none` on an invalid entry
or on a level-0 branch. -/
def walkEntry (st : St) (vaddr : Nat) : Option (Loc × Nat × Nat × PageSize) :=
  let (v0, v1, v2) := vpns_of_vaddr vaddr
  let e2 := st.root.get v2
  match entryKind e2 with
  | none => none
  | some .leaf => some (.root, v2, e2, .gigapage)
  | some (.branch n1) =>
    match memGet st.mem n1 with
    | none => none   -- wild dereference in the source
    | some t1 =>
      let e1 := t1.get v1
      match entryKind e1 with
      | none => none
      | some .leaf => some (.tbl n1, v1, e1, .megapage)
      | some (.branch n2) =>
        match memGet st.mem n2 with
        | none => none
        | some t0 =>
          let e0 := t0.get v0
          match entryKind e0 with
          | none => none
          | some .leaf => some (.tbl n2, v0, e0, .kilopage)
          | some (.branch _) => none

/-- Model of `Table::translate`: mask the page offset out of the virtual
address and add it to the leaf's PPN (`PhysAddr::offset`; no `u64`
wrap possible since the PPN is below `2^56`). -/
def translate (st : St) (vaddr : Nat) : Option (Nat × PageSize) :=
  match walkEntry st vaddr with
  | none => none
  | some (_, _, e, size) =>
    let off := match size with
      | .kilopage => vaddr &&& 0xFFF
      | .megapage => vaddr &&& 0x1FFFFF
      | .gigapage => vaddr &&& 0x3FFFFFFF
    some (Entry.ppn e + off, size)

/-- Is every entry of a table invalid? (`entries.iter().all(|e| !e.valid())`) -/
def allInvalid (t : Tbl) : Bool := t.entries.all (fun e => !Entry.valid e)

/-- Model of `Table::unmap`.  Walks to the leaf (`entry_mut`); clears it; when
the *containing* table became all-invalid, the leaf was not a Gigapage,
the source then calls `pmem::dealloc(self as *mut _)` — note: `self`,
i.e. the page of the *root* table, not the containing table.  The
model records exactly that address in `freed`. -/
def unmap (st : St) (vaddr : Nat) : Bool × St :=
  match walkEntry st vaddr with
  | none => (false, st)
  | some (loc, i, _, size) =>
    let st₁ := st.setEntry loc i 0
    let emptied :=
      match st₁.getTbl loc with
      | none => false
      | some t => allInvalid t
    if (size == PageSize.kilopage || size == PageSize.megapage) && emptied then
      (true, { st₁ with freed := st₁.freed ++ [st₁.rootAddr] })
    else
      (true, st₁)

/-- All branch targets of one table. -/
def tblTargets (t : Tbl) : List Nat :=
  t.entries.filterMap (fun e =>
    match entryKind e with
    | some (.branch n) => some n
    | _ => none)

/-- All branch targets reachable in the state (root and every stored
table). -/
def targets (st : St) : List Nat :=
  tblTargets st.root ++ (st.mem.map (fun p => tblTargets p.2)).flatten

/-- Well-formedness of a mapper state: all tables have their 512
entries; table addresses are distinct; no two branch entries share a
target; every branch target is a live table and none is the root page;
and the page supply is fresh (page-aligned, nonzero, below `2^56`,
disjoint from everything live).  This holds for an empty root with a
sane supply and is what the mapper's own allocation discipline
maintains. -/
def WF (st : St) : Prop :=
  st.root.entries.length = 512 ∧
  (∀ pr ∈ st.mem, pr.2.entries.length = 512) ∧
  (st.mem.map Prod.fst).Nodup ∧
  (targets st).Nodup ∧
  (∀ a ∈ targets st, (memGet st.mem a).isSome = true) ∧
  st.rootAddr ∉ targets st ∧
  st.supply.Nodup ∧
  (∀ a ∈ st.supply,
    a ≠ 0 ∧ a % 4096 = 0 ∧ a < 2 ^ 56 ∧
    a ∉ st.mem.map Prod.fst ∧ a ∉ targets st ∧ a ≠ st.rootAddr)

instance (st : St) : Decidable (WF st) := by
  unfold WF; infer_instance

end St

/-- The offset mask of spec property P5 (claim C5): `0xFFF` for a
Kilopage, `0x1FFFFF` for a Megapage, `0x3FFFFFFF` for a Gigapage —
the same constants `translate` applies. -/
def specMask : PageSize → Nat
  | .kilopage => 0xFFF
  | .megapage => 0x1FFFFF
  | .gigapage => 0x3FFFFFFF

/-! ## Device tree reader — `crates/windy_devicetree/src/tree.rs` and
`src/parse.rs`

The blob is a list of bytes.  Strings (`CStr` node names, path query
segments) are byte lists; the `'@'` and `'/'` characters are the bytes
64 and 47.  The source decodes names to `str` before comparing — the
UTF-8 validity check is elided here (all names compared by the claims
are ASCII, where the decoded comparison and the byte comparison
agree). -/

/-- Big-endian `u32` read of four bytes at `off` (`read_u32` /
`u32::from_be_bytes`). -/
def readU32BE (buf : List Nat) (off : Nat) : Nat :=
  buf.getD off 0 * 2 ^ 24 + buf.getD (off + 1) 0 * 2 ^ 16 +
    buf.getD (off + 2) 0 * 2 ^ 8 + buf.getD (off + 3) 0

/-- The FDT magic number. -/
def FDT_MAGIC : Nat := 0xD00DFEED

/-- Model of `DeviceTree`: the bounded view over the blob. -/
structure DeviceTree where
  buf : List Nat
deriving DecidableEq, Repr

namespace DeviceTree

/-- Model of `DeviceTree::from_ptr` (both the `tree.rs` and the `lib.rs`
revision): verify the magic, read `totalsize`, build the bounded
view.  Nothing else of the header is validated. -/
def from_ptr (blob : List Nat) : Option DeviceTree :=
  if readU32BE blob 0 ≠ FDT_MAGIC then none
  else
    let size := readU32BE blob 4
    some ⟨blob.take size⟩

/-- Model of `u32_at` (the fallible `tree.rs` version:
`self.buf.get(real_idx..real_idx + 4)?`). -/
def u32_at (t : DeviceTree) (idx : Nat) : Option Nat :=
  if idx * 4 + 4 ≤ t.buf.length then some (readU32BE t.buf (idx * 4)) else none

/-- Model of `version` (`lib.rs`): header word 5. -/
def version (t : DeviceTree) : Option Nat := t.u32_at 5

/-- Model of `struct_offset`: header word 2. -/
def struct_offset (t : DeviceTree) : Option Nat := t.u32_at 2

/-- Model of `struct_size`: header word 9. -/
def struct_size (t : DeviceTree) : Option Nat := t.u32_at 9

/-- Model of `strings_offset`: header word 3. -/
def strings_offset (t : DeviceTree) : Option Nat := t.u32_at 3

/-- Model of `strings_size`: header word 8. -/
def strings_size (t : DeviceTree) : Option Nat := t.u32_at 8

end DeviceTree

/-- Model of `next_cstr_from_bytes`: the bytes before the first NUL, or `none`
when there is no NUL. -/
def nextCStr (bytes : List Nat) : Option (List Nat) :=
  match bytes.findIdx? (· == 0) with
  | none => none
  | some i => some (bytes.take i)

/-- Model of `Strings::string_at`: `self.table.get(offset..)?` then
`next_cstr_from_bytes`. -/
def stringAt (table : List Nat) (offset : Nat) : Option (List Nat) :=
  if offset ≤ table.length then nextCStr (table.drop offset) else none

/-- Model of `DeviceTree::strings`: the strings-block slice
(`&self.buf[start..start + size]`, a panicking index in the source —
modelled as `none`). -/
def DeviceTree.strings (t : DeviceTree) : Option (List Nat) :=
  match t.strings_offset, t.strings_size with
  | some start, some size =>
    if start + size ≤ t.buf.length then some ((t.buf.drop start).take size) else none
  | _, _ => none

/-- A raw structure-block token (`parse::Token`).  A `BeginNode` name
is the `CStr` bytes without the NUL. -/
inductive Token where
  | beginNode (name : List Nat)
  | property (data : List Nat) (nameOffset : Nat)
  | endNode
deriving DecidableEq, Repr

/-- Model of `parse::TokenIter`. -/
structure TokenIter where
  buf : List Nat
  offset : Nat
deriving DecidableEq, Repr

namespace TokenIter

/-- Model of `TokenIter::new`. -/
def new (buf : List Nat) : TokenIter := ⟨buf, 0⟩

/-- Model of `next_u32`: bounds-checked read, *without* advancing the offset. -/
def next_u32 (it : TokenIter) : Option Nat :=
  if it.offset + 4 ≤ it.buf.length then some (readU32BE it.buf it.offset) else none

/-- The `while self.offset % 4 != 0 { self.offset += 1 }` padding
loop. -/
def pad4 (o : Nat) : Nat := o + (4 - o % 4) % 4

/-- Model of `TokenIter::next`.  `FDT_NOP` recurses (hence the fuel, which
callers instantiate with more than the buffer length — each recursion
consumes four bytes); `FDT_END` and unknown tokens end the stream.
The `FDT_PROP` arm reproduces the source faithfully: `next_u32` does
not advance, so `len` and `name_offset` both read the word right after
the token, and the offset is left pointing there. -/
def next : Nat → TokenIter → Option (Token × TokenIter)
  | 0, _ => none
  | fuel + 1, it =>
    match it.next_u32 with
    | none => none
    | some w =>
      let it₁ : TokenIter := ⟨it.buf, it.offset + 4⟩
      if w = 1 then
        -- FDT_BEGIN_NODE: NUL-terminated name, then padding
        if it₁.offset ≤ it₁.buf.length then
          match nextCStr (it₁.buf.drop it₁.offset) with
          | none => none
          | some name =>
            some (.beginNode name, ⟨it₁.buf, pad4 (it₁.offset + name.length + 1)⟩)
        else none
      else if w = 3 then
        -- FDT_PROP
        match it₁.next_u32, it₁.next_u32 with
        | some len, some nameOffset =>
          if it₁.offset + len ≤ it₁.buf.length then
            some (.property ((it₁.buf.drop it₁.offset).take len) nameOffset,
              ⟨it₁.buf, pad4 it₁.offset⟩)
          else none
        | _, _ => none
      else if w = 2 then
        some (.endNode, it₁)
      else if w = 4 then
        next fuel it₁
      else
        none

end TokenIter

/-- A node view (`tree.rs`'s `Node`): the token-stream suffix the node
was parsed from, its name bytes and its level. -/
structure DtNode where
  data : List Nat
  name : List Nat
  level : Nat
deriving DecidableEq, Repr

/-- Model of `NodeOrProperty`. -/
inductive NodeOrProperty where
  | node (n : DtNode)
  | property (name : List Nat) (data : List Nat)
deriving DecidableEq, Repr

/-- Model of `Items`: the nodes-and-properties iterator. -/
structure Items where
  tree : DeviceTree
  iter : TokenIter
  level : Nat
deriving DecidableEq, Repr

/-- Fuel bound used for the token-level iterators over a given
buffer. -/
def tokenFuel (buf : List Nat) : Nat := buf.length + 1

/-- Model of `Items::next`.  A property's name is resolved through the strings
block (failure there makes the whole `next` return `None`, as the
source's `?` does); `EndNode` decrements the level (`u8` wrapping
cannot occur on the balanced trees the claims use; `Nat` subtraction
models it) and recurses. -/
def itemsNext : Nat → Items → Option (NodeOrProperty × Items)
  | 0, _ => none
  | fuel + 1, its =>
    let node_buf := its.iter.buf.drop its.iter.offset
    match TokenIter.next (tokenFuel its.iter.buf) its.iter with
    | none => none
    | some (tok, iter') =>
      match tok with
      | .beginNode name =>
        some (.node ⟨node_buf, name, its.level⟩, ⟨its.tree, iter', its.level + 1⟩)
      | .property data nameOffset =>
        match its.tree.strings with
        | none => none
        | some table =>
          match stringAt table nameOffset with
          | none => none
          | some nm => some (.property nm data, ⟨its.tree, iter', its.level⟩)
      | .endNode => itemsNext fuel ⟨its.tree, iter', its.level - 1⟩

/-- Model of `DeviceTree::items`: the structure-block slice (panicking index in
the source, modelled as `none`) wrapped in a token iterator at level
0. -/
def DeviceTree.items (t : DeviceTree) : Option Items :=
  match t.struct_offset, t.struct_size with
  | some start, some size =>
    if start + size ≤ t.buf.length then
      some ⟨t, TokenIter.new ((t.buf.drop start).take size), 0⟩
    else none
  | _, _ => none

/-- Model of `Nodes::next`: the next `Items` element that is a node. -/
def nodesNext : Nat → Items → Option (DtNode × Items)
  | 0, _ => none
  | fuel + 1, its =>
    match itemsNext (tokenFuel its.iter.buf) its with
    | none => none
    | some (.node n, its') => some (n, its')
    | some (.property _ _, its') => nodesNext fuel its'

/-- Model of `nodes_at_level(level).next()`: the first node of `Items` at the
given level (`Iterator::filter` then `next`). -/
def nodesAtLevelNext : Nat → Items → Nat → Option (DtNode × Items)
  | 0, _, _ => none
  | fuel + 1, its, lvl =>
    match nodesNext (tokenFuel its.iter.buf) its with
    | none => none
    | some (n, its') =>
      if n.level = lvl then some (n, its') else nodesAtLevelNext fuel its' lvl

/-- Model of `DeviceTree::root`-style access used by `FindNodes::new_inner`:
`tree.nodes_at_level(0).next()`. -/
def DeviceTree.rootNode (t : DeviceTree) : Option DtNode :=
  match t.items with
  | none => none
  | some its =>
    match nodesAtLevelNext (tokenFuel its.iter.buf) its 0 with
    | none => none
    | some (n, _) => some n

/-- Model of `Children`: iterator over the direct children of a node. -/
structure Children where
  tree : DeviceTree
  iter : TokenIter
  level : Nat
  child_level : Nat
deriving DecidableEq, Repr

/-- Model of `Node::children`. -/
def DtNode.children (t : DeviceTree) (n : DtNode) : Children :=
  ⟨t, TokenIter.new n.data, n.level, n.level + 1⟩

/-- Model of `Children::next`.  A child's `data` is captured *after* its
`BeginNode` token was consumed (unlike `Items::next`). -/
def childrenNext : Nat → Children → Option (DtNode × Children)
  | 0, _ => none
  | fuel + 1, ch =>
    if ch.child_level = 0 then none
    else
      match TokenIter.next (tokenFuel ch.iter.buf) ch.iter with
      | none => none
      | some (tok, iter') =>
        match tok with
        | .beginNode name =>
          let level := ch.level
          let ch₁ : Children := ⟨ch.tree, iter', ch.level + 1, ch.child_level⟩
          if level = ch.child_level then
            some (⟨iter'.buf.drop iter'.offset, name, level⟩, ch₁)
          else
            childrenNext fuel ch₁
        | .property _ _ => childrenNext fuel ⟨ch.tree, iter', ch.level, ch.child_level⟩
        | .endNode =>
          if ch.level = ch.child_level then none
          else childrenNext fuel ⟨ch.tree, iter', ch.level - 1, ch.child_level⟩

/-- Rust `str::split` at `'@'` (byte 64), limited to the two leading
segments the source looks at: the part before the first `'@'`, and —
when an `'@'` is present — the part between the first and second
`'@'` (or the rest). -/
def splitUnit (xs : List Nat) : List Nat × Option (List Nat) :=
  match xs.findIdx? (· == 64) with
  | none => (xs, none)
  | some i =>
    let rest := xs.drop (i + 1)
    match rest.findIdx? (· == 64) with
    | none => (xs.take i, some rest)
    | some j => (xs.take i, some (rest.take j))

/-- Model of `FindNodes::names_equal`: compare the `name@unit` split; the unit
address matches when either side omits it.  (The source first decodes
the `CStr` to UTF-8; on the ASCII names at issue that is the identity,
so the byte-level comparison is used here.) -/
def namesEqual (a b : List Nat) : Bool :=
  let (aName, aUnit) := splitUnit a
  let (bName, bUnit) := splitUnit b
  let unitSame :=
    match aUnit, bUnit with
    | some x, some y => x == y
    | _, _ => true
  aName == bName && unitSame

/-- Model of `nodes.filter(|node| names_equal(node.name(), name)).next()`:
advance the children iterator to the first matching child, returning
it together with the iterator state. -/
def childrenFind : Nat → Children → List Nat → Option DtNode × Children
  | 0, ch, _ => (none, ch)
  | fuel + 1, ch, name =>
    match childrenNext (tokenFuel ch.iter.buf) ch with
    | none => (none, ch)
    | some (n, ch') =>
      if namesEqual n.name name then (some n, ch') else childrenFind fuel ch' name

/-- Rust `str::split_terminator('/')` on a byte string: split at byte
47, dropping one trailing empty segment. -/
def splitTerminator (xs : List Nat) : List (List Nat) :=
  let parts := xs.splitOn 47
  match parts.reverse with
  | [] :: rest => rest.reverse
  | _ => parts

/-- Model of `FindNodes`: the lazy query iterator. -/
structure FindNodes where
  lastPart : List Nat
  nodes : Option Children
  singleNode : Option DtNode
deriving DecidableEq, Repr

namespace FindNodes

/-- The `while let Some(part) = next_part` descent loop of
`new_inner`: `ps` is the list of remaining parts with the invariant
`next_part = ps.head?`.  Returns the children iterator to delegate to
and the last part, or `none` (which `new` turns into the always-empty
iterator). -/
def descend : Nat → DeviceTree → Children → List (List Nat) →
    Option (Children × List Nat)
  | 0, _, _, _ => none
  | _, _, _, [] => none   -- `last_part: next_part?` with no part left
  | _ + 1, _, children, [part] => some (children, part)   -- peek = None → break
  | fuel + 1, t, children, part :: rest =>
    match childrenFind (tokenFuel children.iter.buf) children part with
    | (none, _) => none   -- `.find(..)?`
    | (some node, _) => descend fuel t (node.children t) rest

/-- Model of `FindNodes::new_inner`. -/
def new_inner (t : DeviceTree) (path : List Nat) : Option FindNodes :=
  if path = [47] then
    -- the root path is special-cased
    some ⟨path, none, t.rootNode⟩
  else
    match splitTerminator path with
    | [] => none   -- `parts.next()?`
    | _ :: parts =>
      match t.rootNode with
      | none => none
      | some root =>
        match descend (parts.length + 1) t (root.children t) parts with
        | none => none
        | some (children, lastPart) => some ⟨lastPart, some children, none⟩

/-- Model of `FindNodes::new`: fall back to the iterator that always returns
`None`. -/
def new (t : DeviceTree) (path : List Nat) : FindNodes :=
  match new_inner t path with
  | some fn => fn
  | none => ⟨path, none, none⟩

/-- Model of `<FindNodes as Iterator>::next`.  In the `single_node` case the
stored node is cloned and returned — the field is *not* cleared. -/
def next (fn : FindNodes) : Option DtNode × FindNodes :=
  match fn.singleNode with
  | some node => (some node, fn)
  | none =>
    match fn.nodes with
    | some ch =>
      match childrenFind (tokenFuel ch.iter.buf) ch fn.lastPart with
      | (res, ch') => (res, ⟨fn.lastPart, some ch', fn.singleNode⟩)
    | none => (none, fn)

/-- The result of the `n`-th `next` call (0-based) on an iterator,
threading the mutated state. -/
def nthNext : Nat → FindNodes → Option DtNode × FindNodes
  | 0, fn => fn.next
  | n + 1, fn => nthNext n fn.next.2

end FindNodes

/-- Model of `DeviceTree::find_node`: `self.find_nodes(path).next()`. -/
def DeviceTree.find_node (t : DeviceTree) (path : List Nat) : Option DtNode :=
  (FindNodes.new t path).next.1

/-! ## Concrete program runs used by the claims -/

/-- Run of claims C1 and C3: on a fresh buddy, add the 8 KiB region
`[0x2000, 0x4000)` (one aligned order-1 block), allocate one order-0
page (the split yields `0x3000`), then deallocate it at order 0. -/
def buddyDeallocTrace : Except AllocError BuddyAllocator :=
  match BuddyAllocator.new.add_region 0x2000 0x4000 with
  | .error e => .error e
  | .ok (b, _) =>
    match b.allocate 0 with
    | .error e => .error e
    | .ok (p, _, b₁) => b₁.deallocate p 0

/-- Run of claim C8: add the region `[0x1000, 0x3000)`.  The region
holds 8 KiB, so `add_single_region` picks order 1, although `0x1000`
is not aligned to `size_for_order 1 = 0x2000`. -/
def buddyUnalignedTrace : Except AllocError (BuddyAllocator × Nat) :=
  BuddyAllocator.new.add_region 0x1000 0x3000

/-- A fresh, well-formed mapper state: empty root table at
`0x8000_0000`, two fresh pages for interior tables. -/
def sv39St0 : St :=
  ⟨0x80000000, Tbl.new, [], [0x80001000, 0x80002000], []⟩

/-- Run of claim C4: map one Megapage (identity, at `0x20_0000`), then
unmap it.  The interior level-1 table becomes all-invalid, so the
source frees a page — `self`, the root. -/
def sv39UnmapTrace : Option (Bool × St) :=
  match St.map sv39St0 0x200000 0x200000 .megapage 1 with
  | .error _ => none
  | .ok st₁ => some (st₁.unmap 0x200000)

/-- Run of claim C5's counterexample: map a Kilopage with the empty
permission set.  The written leaf has all permission bits zero, which
the walk decodes as a *branch*, so `translate` does not see the
mapping. -/
def sv39PermZeroTrace : Option (Option (Nat × PageSize)) :=
  match St.map sv39St0 0x5000 0x1000 .kilopage 0 with
  | .error _ => none
  | .ok st₁ => some (st₁.translate 0x1000)

/-- Run of claim C6's counterexample: the same Kilopage `map` twice
with identical arguments. -/
def sv39DoubleMapTrace : Except PageError St :=
  match St.map sv39St0 0x5000 0x1000 .kilopage 1 with
  | .error e => .error e
  | .ok st₁ => St.map st₁ 0x5000 0x1000 .kilopage 1

/-- Run of claim C7's counterexample: four valid inserts into a fresh
set.  The fourth range touches all three stored ranges; while merging
them, `merge_blocks` keeps scanning up to the stale loop bound, reads
the stale zero slot at index 1 (which "touches" the widened range
because its start is 0), and panics in `self.remove(idx).unwrap()`. -/
def rsPanicTrace : Except RSError RangeSet :=
  RangeSet.new.insertAll [⟨0, 9⟩, ⟨20, 29⟩, ⟨40, 49⟩, ⟨5, 45⟩]

/-- A small insertion sequence on which every `insert` succeeds. -/
def rs7Input : List RSRange := [⟨0, 9⟩, ⟨20, 29⟩]

/-- The set produced by inserting `rs7Input` into an empty set. -/
def rs7Set : RangeSet :=
  (RangeSet.new.insertAll rs7Input).toOption.getD RangeSet.new

/-- A 56-byte flattened device tree: valid magic, `totalsize = 56`,
structure block of 16 bytes at offset 40 holding one empty-named root
node (`BEGIN_NODE`, name `""` padded, `END_NODE`, `END`), empty
strings block — and header `version = 16`. -/
def blob16 : List Nat :=
  [0xD0, 0x0D, 0xFE, 0xED,  0, 0, 0, 56,  0, 0, 0, 40,  0, 0, 0, 56,
   0, 0, 0, 0,  0, 0, 0, 16,  0, 0, 0, 16,  0, 0, 0, 0,
   0, 0, 0, 0,  0, 0, 0, 16,
   0, 0, 0, 1,  0, 0, 0, 0,  0, 0, 0, 2,  0, 0, 0, 9]

/-- The tree view over `blob16` (`from_ptr` succeeds and takes all 56
bytes). -/
def dtTree16 : DeviceTree := ⟨blob16⟩

/-- The root node of `dtTree16`. -/
def dtRoot16 : DtNode :=
  ⟨[0, 0, 0, 1, 0, 0, 0, 0, 0, 0, 0, 2, 0, 0, 0, 9], [], 0⟩


/-- The state after the first Kilopage map of the C5 witness run. -/
def sv39St1 : St :=
  (St.map sv39St0 0x5000 0x40201000 .kilopage 3).toOption.getD sv39St0

/-- The state after the first Kilopage map of the C6 witness run. -/
def sv39DoubleSt1 : St :=
  (St.map sv39St0 0x5000 0x1000 .kilopage 1).toOption.getD sv39St0

/-! # Theorems -/

/-- Claim C1 (code bug).  The spec's `deallocate(block, order)`: when
the buddy is on `list[order]`, remove it, and the merged block
`min(block, buddy)` moves to `order + 1`, leaving neither half on
`list[order]`.  The code instead pushes `block` onto `list[order]`
first and never removes it, and pushes `block` (not the minimum) onto
the next order: after adding `[0x2000, 0x4000)`, allocating the
order-0 page `0x3000` and deallocating it, `0x3000` sits on *both*
`list[0]` and `list[1]`, and the merged block on `list[1]` is `0x3000`
rather than `min(0x2000, 0x3000) = 0x2000`. -/
theorem deallocate_merge_leaves_freed_block_on_both_lists :
    (buddyDeallocTrace.map fun b => (b.ordersGet 0, b.ordersGet 1)) =
      .ok ([0x3000], [0x3000]) := by
  rfl

/-- Claim C3 (code bug).  The spec's invariant P3,
`stats.free + stats.allocated == stats.total`, fails on the run of
`buddyDeallocTrace`: `deallocate` updates the statistics with
`size_for_order` of the *merged* order (8 KiB) although only the
deallocated order-0 page (4 KiB) was allocated, and the
`saturating_sub` on `allocated` hides the underflow.  Afterwards
`free + allocated = 12288 ≠ 8192 = total`. -/
theorem deallocate_statistics_unbalanced :
    (buddyDeallocTrace.map fun b => (b.free + b.allocated, b.total)) =
      .ok (12288, 8192) ∧ (12288 : Nat) ≠ 8192 := by
  exact ⟨by rfl, by decide⟩

/-- Claim C8 (code bug).  The spec requires every enrolled block to be
aligned to its order's size, falling back to a smaller order when the
alignment is impossible; the code's `add_single_region` only checks
that the next order still *fits* (there is no alignment check — the
sibling revision even carries a `FIXME` about it).  Adding
`[0x1000, 0x3000)` enrols the block `0x1000` at order 1, whose size is
`0x2000`, although `0x1000 % 0x2000 ≠ 0`. -/
theorem add_region_enrolls_unaligned_block :
    (buddyUnalignedTrace.map fun p => p.1.ordersGet 1) = .ok [0x1000] ∧
      0x1000 % size_for_order 1 ≠ 0 := by
  exact ⟨by rfl, by decide⟩

set_option maxRecDepth 8192 in
/-- Claim C4 (code bug).  The spec (and the source's own comments) say
`unmap` frees the *containing* table when it becomes all-invalid and
is not the root; the code passes `self` — the root table — to
`pmem::dealloc`.  Mapping one Megapage from the fresh state (root page
at `0x8000_0000`, interior table page `0x8000_1000`) and unmapping it
returns `true` and frees exactly the root's page, while the emptied
interior table is still allocated. -/
theorem unmap_frees_root_instead_of_containing_table :
    (sv39UnmapTrace.map fun r => (r.1, r.2.freed, r.2.mem.map Prod.fst)) =
      some (true, [0x80000000], [0x80001000]) ∧
      sv39St0.rootAddr = 0x80000000 := by
  exact ⟨by decide, by rfl⟩

/-- Claim C9, counterexample.  A blob with a valid magic but header
version 16 (< 17) is accepted by `from_ptr`, which produces the tree
view instead of failing. -/
theorem from_ptr_accepts_version_16 :
    (DeviceTree.from_ptr blob16).isSome = true ∧
      (DeviceTree.from_ptr blob16).map DeviceTree.version = some (some 16) ∧
      16 < 17 := by
  exact ⟨by rfl, by rfl, by decide⟩

/-- Claim C9 (amended).  Construction from a raw blob fails exactly
when the first big-endian `u32` differs from the magic `0xD00DFEED`;
the header version is read from the view but never validated by
construction. -/
theorem from_ptr_checks_exactly_magic (blob : List Nat) :
    (DeviceTree.from_ptr blob).isSome = true ↔ readU32BE blob 0 = FDT_MAGIC := by
  unfold DeviceTree.from_ptr
  split
  · simp_all
  · simp_all

/-- Witness for `from_ptr_checks_exactly_magic` at the concrete blob
`blob16`. -/
theorem from_ptr_checks_exactly_magic_witness :
    (DeviceTree.from_ptr blob16).isSome = true := by
  exact (from_ptr_checks_exactly_magic blob16).mpr (by rfl)

/-- Claim C10 (confirmed).  For the query path `"/"`,
`FindNodes::new_inner` stores the root node in `single_node`, and the
iterator's `next` clones it *without clearing the field*: `find_node`
returns the root, and every subsequent `next` call returns the root
again — the sequence of matches for `"/"` never ends. -/
theorem find_nodes_root_yields_forever (t : DeviceTree) (r : DtNode)
    (h : t.rootNode = some r) :
    t.find_node [47] = some r ∧
      ∀ n, (FindNodes.nthNext n (FindNodes.new t [47])).1 = some r := by
  have hnew : FindNodes.new t [47] = ⟨[47], none, some r⟩ := by
    unfold FindNodes.new FindNodes.new_inner
    simp [h]
  have hnext : FindNodes.next ⟨[47], none, some r⟩ = (some r, ⟨[47], none, some r⟩) := by
    rfl
  refine ⟨?_, ?_⟩
  · unfold DeviceTree.find_node
    rw [hnew, hnext]
  · intro n
    rw [hnew]
    induction n with
    | zero => simp [FindNodes.nthNext, hnext]
    | succ k ih => simpa [FindNodes.nthNext, hnext] using ih

/-- Witness for `find_nodes_root_yields_forever` at the 56-byte tree
`dtTree16`: its root is `dtRoot16`, `find_node "/"` returns it, and so
does (for instance) the sixth `next` call. -/
theorem find_nodes_root_yields_forever_witness :
    dtTree16.find_node [47] = some dtRoot16 ∧
      (FindNodes.nthNext 5 (FindNodes.new dtTree16 [47])).1 = some dtRoot16 := by
  have h := find_nodes_root_yields_forever dtTree16 dtRoot16 (by rfl)
  exact ⟨h.1, h.2 5⟩



theorem lor_shiftRight (a b k : Nat) : (a ||| b) >>> k = a >>> k ||| b >>> k := by
  apply Nat.eq_of_testBit_eq
  intro i
  simp [Nat.testBit_lor, Nat.testBit_shiftRight]

theorem lor_mod_two_pow (a b k : Nat) : (a ||| b) % 2 ^ k = a % 2 ^ k ||| b % 2 ^ k := by
  apply Nat.eq_of_testBit_eq
  intro i
  simp only [Nat.testBit_lor, Nat.testBit_mod_two_pow]
  by_cases h : i < k <;> simp [h]

theorem shiftLeft_shiftRight_cancel (a j k : Nat) (h : k ≤ j) :
    (a <<< j) >>> k = a <<< (j - k) := by
  rw [Nat.shiftLeft_eq, Nat.shiftLeft_eq, Nat.shiftRight_eq_div_pow]
  have h2 : (2:Nat) ^ j = 2 ^ (j - k) * 2 ^ k := by
    rw [← pow_add]
    congr 1
    omega
  rw [h2, ← Nat.mul_assoc]
  exact Nat.mul_div_cancel _ (Nat.two_pow_pos k)

theorem shiftRight_eq_zero (a k : Nat) (h : a < 2 ^ k) : a >>> k = 0 := by
  rw [Nat.shiftRight_eq_div_pow]
  exact Nat.div_eq_of_lt h

/-- Validity of any entry with the low bit or-ed in. -/
theorem valid_lor_one (x : Nat) : Entry.valid (x ||| 1) = true := by
  unfold Entry.valid
  have h : (x ||| 1) % 2 = x % 2 ||| 1 % 2 := by
    have := lor_mod_two_pow x 1 1
    simpa using this
  have h2 : x % 2 = 0 ∨ x % 2 = 1 := Nat.mod_two_eq_zero_or_one x
  rcases h2 with h2 | h2 <;> simp [h, h2]

/-- Permission decode of a written leaf entry. -/
theorem perm_leafE (x pb : Nat) (hpb : pb < 8) :
    Entry.perm ((x <<< 10) ||| (pb <<< 1) ||| 1) = pb := by
  unfold Entry.perm
  rw [lor_shiftRight, lor_shiftRight,
      shiftLeft_shiftRight_cancel x 10 1 (by omega),
      shiftLeft_shiftRight_cancel pb 1 1 (by omega)]
  have e1 : (1 : Nat) >>> 1 = 0 := by decide
  have e2 : pb <<< 0 = pb := by simp [Nat.shiftLeft_eq]
  rw [e1, e2, Nat.or_zero _]
  have e3 : (8 : Nat) = 2 ^ 3 := by decide
  rw [e3, lor_mod_two_pow]
  have h9 : x <<< 9 % 2 ^ 3 = 0 := by
    rw [Nat.shiftLeft_eq]
    show x * 512 % 8 = 0
    omega
  have h8 : pb % 2 ^ 3 = pb := Nat.mod_eq_of_lt (by omega)
  rw [h9, h8]
  exact Nat.zero_or pb

/-- Permission decode of a written branch entry. -/
theorem perm_branchE (x : Nat) : Entry.perm ((x <<< 10) ||| 1) = 0 := by
  unfold Entry.perm
  rw [lor_shiftRight, shiftLeft_shiftRight_cancel x 10 1 (by omega)]
  have e1 : (1 : Nat) >>> 1 = 0 := by decide
  rw [e1, Nat.or_zero _]
  have e3 : (8 : Nat) = 2 ^ 3 := by decide
  rw [e3]
  rw [Nat.shiftLeft_eq]
  show x * 512 % 8 = 0
  omega

/-- PPN-field decode of a written entry: the low ten or-ed bits fall
away and the PPN comes back. -/
theorem ppnField_decode (p low : Nat) (hlow : low < 2 ^ 10) :
    ((ppn_of_paddr p <<< 10 ||| low) >>> 10) % 2 ^ 44 = ppn_of_paddr p := by
  rw [lor_shiftRight, shiftLeft_shiftRight_cancel _ 10 10 (by omega),
      shiftRight_eq_zero low 10 hlow, Nat.or_zero _]
  have : ppn_of_paddr p <<< 0 = ppn_of_paddr p := by simp [Nat.shiftLeft_eq]
  rw [this]
  exact Nat.mod_eq_of_lt (by
    unfold ppn_of_paddr
    exact Nat.mod_lt _ (by norm_num))

/-- Full physical-address round trip for a page-aligned `p < 2^56`. -/
theorem entryPpn_decode (p low : Nat) (hlow : low < 2 ^ 10)
    (hal : p % 4096 = 0) (hp : p < 2 ^ 56) :
    Entry.ppn (ppn_of_paddr p <<< 10 ||| low) = p := by
  unfold Entry.ppn
  rw [ppnField_decode p low hlow]
  unfold ppn_of_paddr
  rw [Nat.shiftRight_eq_div_pow, Nat.shiftLeft_eq]
  have h1 : p / 2 ^ 12 < 2 ^ 44 := by omega
  rw [Nat.mod_eq_of_lt h1]
  show p / 2 ^ 12 * 2 ^ 12 = p
  omega


theorem entryKind_branchE (a : Nat) (hal : a % 4096 = 0) (ha : a < 2 ^ 56) :
    entryKind (ppn_of_paddr a <<< 10 ||| 1) = some (.branch a) := by
  unfold entryKind
  rw [valid_lor_one, perm_branchE]
  rw [show Entry.ppn (ppn_of_paddr a <<< 10 ||| 1) = a from
    entryPpn_decode a 1 (by norm_num) hal ha]
  rfl

/-- Kind decode of a written leaf entry with nonzero permissions. -/
theorem entryKind_leafE (p pb : Nat) (hpb : pb < 8) (hpb0 : pb ≠ 0) :
    entryKind (ppn_of_paddr p <<< 10 ||| pb <<< 1 ||| 1) = some .leaf := by
  unfold entryKind
  rw [valid_lor_one, perm_leafE _ pb hpb]
  simp [hpb0]


theorem Tbl.get_set_self (t : Tbl) (i v : Nat) (h : i < t.entries.length) :
    (t.set i v).get i = v := by
  unfold Tbl.get Tbl.set
  simp only
  rw [List.getD_eq_getElem?_getD, List.getElem?_set_self', List.getElem?_eq_getElem h]
  simp [Function.const]

theorem Tbl.get_set_ne (t : Tbl) (i j v : Nat) (h : i ≠ j) :
    (t.set i v).get j = t.get j := by
  unfold Tbl.get Tbl.set
  simp only
  rw [List.getD_eq_getElem?_getD, List.getElem?_set_ne h, ← List.getD_eq_getElem?_getD]

theorem St.memGet_memSet_self (m : List (Nat × Tbl)) (a : Nat) (t' : Tbl)
    (h : (St.memGet m a).isSome = true) :
    St.memGet (St.memSet m a t') a = some t' := by
  induction m with
  | nil => simp [St.memGet] at h
  | cons kv rest ih =>
    by_cases hk : kv.1 = a
    · simp [St.memGet, St.memSet, hk]
    · simp only [St.memGet, St.memSet, hk, if_false] at h ⊢
      exact ih h

theorem St.memGet_memSet_ne (m : List (Nat × Tbl)) (a b : Nat) (t' : Tbl)
    (h : a ≠ b) : St.memGet (St.memSet m a t') b = St.memGet m b := by
  induction m with
  | nil => simp [St.memGet, St.memSet]
  | cons kv rest ih =>
    by_cases hk : kv.1 = a
    · simp [St.memGet, St.memSet, hk, h, (hk.trans_ne h : kv.1 ≠ b)]
    · simp only [St.memGet, St.memSet, hk, if_false]
      by_cases hb : kv.1 = b
      · simp [hb]
      · simp [hb, ih]

/-- Anatomy of a successful `get_next_level`: either the entry was a
branch (state unchanged) or it was invalid and a fresh page was
allocated, linked and zero-initialised. -/
theorem St.get_next_level_ok (st : St) (loc : Loc) (i : Nat) (st1 : St) (a : Nat)
    (h : St.get_next_level st loc i = .ok (st1, a)) :
    ∃ t, st.getTbl loc = some t ∧
      ((entryKind (t.get i) = some (.branch a) ∧ st1 = st) ∨
       (entryKind (t.get i) = none ∧ ∃ rest, st.supply = a :: rest ∧
         st1 = St.setEntry { st with supply := rest, mem := (a, Tbl.new) :: st.mem }
           loc i (ppn_of_paddr a <<< 10 ||| 1))) := by
  unfold St.get_next_level at h
  split at h
  · exact absurd h (by simp)
  · rename_i t hg
    refine ⟨t, hg, ?_⟩
    split at h
    · rename_i hk
      split at h
      · exact absurd h (by simp)
      · rename_i a0 rest hs
        simp only [Except.ok.injEq, Prod.mk.injEq] at h
        right
        refine ⟨hk, rest, ?_, ?_⟩
        · rw [hs, h.2]
        · rw [← h.1, ← h.2]
    · rename_i n hk
      simp only [Except.ok.injEq, Prod.mk.injEq] at h
      left
      rw [h.2] at hk
      exact ⟨hk, h.1.symm⟩
    · exact absurd h (by simp)


theorem or_lt_two_pow (x y k : Nat) (hx : x < 2 ^ k) (hy : y < 2 ^ k) :
    x ||| y < 2 ^ k := by
  apply Nat.bitwise_lt <;> assumption

theorem entryKind_zero : entryKind 0 = none := by decide

theorem Tbl.new_get (i : Nat) : Tbl.new.get i = 0 := by
  unfold Tbl.new Tbl.get
  simp only
  rw [List.getD_eq_getElem?_getD, List.getElem?_replicate]
  by_cases h : i < 512
  · rw [if_pos h]
    rfl
  · rw [if_neg h]
    rfl

theorem Tbl.new_len : Tbl.new.entries.length = 512 := by
  show (List.replicate 512 (0 : Nat)).length = 512
  rw [List.length_replicate]

/-- An entry decoding as a branch really sits in the table, so its
target is among the table's branch targets. -/
theorem tblTargets_mem (t : Tbl) (i n : Nat)
    (h : entryKind (t.get i) = some (.branch n)) : n ∈ St.tblTargets t := by
  by_cases hi : i < t.entries.length
  · unfold St.tblTargets
    apply List.mem_filterMap.2
    refine ⟨t.get i, ?_, by rw [h]⟩
    unfold Tbl.get
    rw [List.getD_eq_getElem?_getD, List.getElem?_eq_getElem hi]
    exact List.getElem_mem _
  · exfalso
    unfold Tbl.get at h
    rw [List.getD_eq_default] at h
    · rw [entryKind_zero] at h
      exact absurd h (by simp)
    · omega

theorem targets_mem_root (st : St) (n : Nat) (h : n ∈ St.tblTargets st.root) :
    n ∈ St.targets st :=
  List.mem_append_left _ h

theorem memGet_some_mem (m : List (Nat × Tbl)) (a : Nat) (t : Tbl)
    (h : St.memGet m a = some t) : (a, t) ∈ m := by
  induction m with
  | nil => simp [St.memGet] at h
  | cons kv rest ih =>
    by_cases hk : kv.1 = a
    · simp only [St.memGet, hk, if_true, Option.some.injEq] at h
      have hkv : kv = (a, t) := by
        rcases kv with ⟨k1, k2⟩
        simp only at hk h
        rw [hk, h]
      rw [hkv]
      exact List.mem_cons_self _ _
    · simp only [St.memGet, hk, if_false] at h
      exact List.mem_cons_of_mem _ (ih h)

theorem memGet_isSome_mem_keys (m : List (Nat × Tbl)) (a : Nat)
    (h : (St.memGet m a).isSome = true) : a ∈ m.map Prod.fst := by
  cases hg : St.memGet m a with
  | none => rw [hg] at h; simp at h
  | some t =>
    exact List.mem_map.2 ⟨(a, t), memGet_some_mem m a t hg, rfl⟩

theorem targets_mem_table (st : St) (a n : Nat) (t : Tbl)
    (h : St.memGet st.mem a = some t) (hn : n ∈ St.tblTargets t) :
    n ∈ St.targets st := by
  apply List.mem_append_right
  apply List.mem_flatten.2
  exact ⟨St.tblTargets t, List.mem_map.2 ⟨(a, t), memGet_some_mem _ _ _ h, rfl⟩, hn⟩


/-- Shape of a successful Gigapage `map`: the leaf entry lands in the
root table at `VPN[2]`. -/
theorem map_giga_structure (st st1 : St) (p v perm : Nat)
    (hok : St.map st p v .gigapage perm = .ok st1) :
    st1 = St.setEntry st .root ((v >>> 30) % 512)
        (ppn_of_paddr p <<< 10 ||| permBits perm <<< 1 ||| 1) ∧
      PageSize.is_aligned .gigapage p = true := by
  unfold St.map at hok
  split at hok
  · exact absurd hok (by simp)
  · rename_i hal
    simp only [vpns_of_vaddr, Except.ok.injEq] at hok
    push_neg at hal
    exact ⟨hok.symm, hal.1⟩


/-- Shape of a successful Megapage `map`: after the call, the root's
`VPN[2]` entry branches to a table whose `VPN[1]` entry is the written
leaf. -/
theorem map_mega_structure (st st1 : St) (p v perm : Nat)
    (hwf : St.WF st)
    (hok : St.map st p v .megapage perm = .ok st1) :
    (∃ a1 t1,
      entryKind (st1.root.get ((v >>> 30) % 512)) = some (.branch a1) ∧
      St.memGet st1.mem a1 = some t1 ∧
      t1.get ((v >>> 21) % 512) =
        ppn_of_paddr p <<< 10 ||| permBits perm <<< 1 ||| 1) ∧
      PageSize.is_aligned .megapage p = true := by
  obtain ⟨hlen512, hmemlen, hkeys, htgts, hlive, hroot, hsup, hsupp⟩ := hwf
  unfold St.map at hok
  split at hok
  · exact absurd hok (by simp)
  rename_i hal
  push_neg at hal
  refine ⟨?_, hal.1⟩
  simp only [vpns_of_vaddr] at hok
  cases hg : St.get_next_level st .root ((v >>> 30) % 512) with
  | error e => rw [hg] at hok; exact absurd hok (by simp)
  | ok pr =>
    obtain ⟨stA, a1⟩ := pr
    rw [hg] at hok
    simp only [Except.ok.injEq] at hok
    obtain ⟨t, ht, hcase⟩ := St.get_next_level_ok _ _ _ _ _ hg
    have htr : t = st.root := by
      simpa [St.getTbl] using ht.symm
    subst htr
    rcases hcase with ⟨hk, hA⟩ | ⟨hk, rest, hsupply, hA⟩
    · -- the root entry was already a branch to a1
      rw [hA] at hok
      have ha1t : a1 ∈ St.targets st :=
        targets_mem_root st a1 (tblTargets_mem _ _ _ hk)
      have ha1live := hlive a1 ha1t
      cases ht1 : St.memGet st.mem a1 with
      | none => rw [ht1] at ha1live; simp at ha1live
      | some t1 =>
        have hset : st1 = ⟨st.rootAddr, st.root,
            St.memSet st.mem a1 (t1.set ((v >>> 21) % 512)
              (ppn_of_paddr p <<< 10 ||| permBits perm <<< 1 ||| 1)),
            st.supply, st.freed⟩ := by
          rw [← hok]
          unfold St.setEntry
          dsimp only
          rw [ht1]
        refine ⟨a1, t1.set ((v >>> 21) % 512)
            (ppn_of_paddr p <<< 10 ||| permBits perm <<< 1 ||| 1), ?_, ?_, ?_⟩
        · rw [hset]
          exact hk
        · rw [hset]
          exact St.memGet_memSet_self _ _ _ (by rw [ht1]; rfl)
        · apply Tbl.get_set_self
          have := hmemlen (a1, t1) (memGet_some_mem _ _ _ ht1)
          simp only at this
          rw [this]
          exact Nat.mod_lt _ (by norm_num)
    · -- the root entry was invalid; a fresh table a1 was linked
      have hfresh := hsupp a1 (by rw [hsupply]; exact List.mem_cons_self _ _)
      rw [hA] at hok
      have hset : st1 = ⟨st.rootAddr,
          st.root.set ((v >>> 30) % 512) (ppn_of_paddr a1 <<< 10 ||| 1),
          (a1, Tbl.new.set ((v >>> 21) % 512)
            (ppn_of_paddr p <<< 10 ||| permBits perm <<< 1 ||| 1)) :: st.mem,
          rest, st.freed⟩ := by
        rw [← hok]
        unfold St.setEntry
        simp [St.memGet, St.memSet]
      refine ⟨a1, Tbl.new.set ((v >>> 21) % 512)
          (ppn_of_paddr p <<< 10 ||| permBits perm <<< 1 ||| 1), ?_, ?_, ?_⟩
      · rw [hset]
        simp only
        rw [Tbl.get_set_self _ _ _ (by rw [hlen512]; exact Nat.mod_lt _ (by norm_num))]
        exact entryKind_branchE a1 hfresh.2.1 hfresh.2.2.1
      · rw [hset]
        simp [St.memGet]
      · apply Tbl.get_set_self
        rw [Tbl.new_len]
        exact Nat.mod_lt _ (by norm_num)


/-- Shape of a successful Kilopage `map`: after the call the walk
`root → table a1 → table a2` exists and the `VPN[0]` slot of the
level-0 table holds the written leaf. -/
theorem map_kilo_structure (st st1 : St) (p v perm : Nat)
    (hwf : St.WF st)
    (hok : St.map st p v .kilopage perm = .ok st1) :
    (∃ a1 t1 a2 t0,
      entryKind (st1.root.get ((v >>> 30) % 512)) = some (.branch a1) ∧
      St.memGet st1.mem a1 = some t1 ∧
      entryKind (t1.get ((v >>> 21) % 512)) = some (.branch a2) ∧
      St.memGet st1.mem a2 = some t0 ∧
      t0.get ((v >>> 12) % 512) =
        ppn_of_paddr p <<< 10 ||| permBits perm <<< 1 ||| 1) ∧
      PageSize.is_aligned .kilopage p = true := by
  obtain ⟨hlen512, hmemlen, hkeys, htgts, hlive, hroot, hsup, hsupp⟩ := hwf
  unfold St.map at hok
  split at hok
  · exact absurd hok (by simp)
  rename_i hal
  push_neg at hal
  refine ⟨?_, hal.1⟩
  simp only [vpns_of_vaddr] at hok
  cases hg1 : St.get_next_level st .root ((v >>> 30) % 512) with
  | error e => rw [hg1] at hok; exact absurd hok (by simp)
  | ok pr1 =>
    obtain ⟨stA, a1⟩ := pr1
    rw [hg1] at hok
    dsimp only at hok
    obtain ⟨t, ht, hcase1⟩ := St.get_next_level_ok _ _ _ _ _ hg1
    have htr : t = st.root := by
      simpa [St.getTbl] using ht.symm
    subst htr
    cases hg2 : St.get_next_level stA (.tbl a1) ((v >>> 21) % 512) with
    | error e => rw [hg2] at hok; exact absurd hok (by simp)
    | ok pr2 =>
      obtain ⟨stB, a2⟩ := pr2
      rw [hg2] at hok
      simp only [Except.ok.injEq] at hok
      obtain ⟨t1x, ht1x, hcase2⟩ := St.get_next_level_ok _ _ _ _ _ hg2
      rcases hcase1 with ⟨hk1, hA⟩ | ⟨hk1, rest, hsupply, hA⟩
      · -- root entry was a branch to a1; stA = st
        rw [hA] at ht1x hcase2
        have ht1some : (St.memGet st.mem a1).isSome = true :=
          hlive a1 (targets_mem_root st a1 (tblTargets_mem _ _ _ hk1))
        have ht1x' : St.memGet st.mem a1 = some t1x := by
          simpa [St.getTbl] using ht1x
        have ht1len : t1x.entries.length = 512 := by
          have := hmemlen (a1, t1x) (memGet_some_mem _ _ _ ht1x')
          simpa using this
        have ha1keys : a1 ∈ st.mem.map Prod.fst := memGet_isSome_mem_keys _ _ ht1some
        rcases hcase2 with ⟨hk2, hB⟩ | ⟨hk2, rest2, hsupply2, hB⟩
        · -- second entry was a branch to a2; stB = st
          rw [hB] at hok
          have ha2t : a2 ∈ St.targets st :=
            targets_mem_table st a1 a2 t1x ht1x' (tblTargets_mem _ _ _ hk2)
          have ht0some : (St.memGet st.mem a2).isSome = true := hlive a2 ha2t
          cases ht0 : St.memGet st.mem a2 with
          | none => rw [ht0] at ht0some; simp at ht0some
          | some t0 =>
            have hne : a1 ≠ a2 := by
              intro hEq
              have hdisj : (St.tblTargets st.root).Disjoint
                  ((st.mem.map fun pr => St.tblTargets pr.2).flatten) :=
                List.disjoint_of_nodup_append htgts
              have ha2R : a2 ∈ (st.mem.map fun pr => St.tblTargets pr.2).flatten :=
                List.mem_flatten.2 ⟨St.tblTargets t1x,
                  List.mem_map.2 ⟨(a1, t1x), memGet_some_mem _ _ _ ht1x', rfl⟩,
                  tblTargets_mem _ _ _ hk2⟩
              exact hdisj (tblTargets_mem _ _ _ hk1) (hEq ▸ ha2R)
            have hset : st1 = ⟨st.rootAddr, st.root,
                St.memSet st.mem a2 (t0.set ((v >>> 12) % 512)
                  (ppn_of_paddr p <<< 10 ||| permBits perm <<< 1 ||| 1)),
                st.supply, st.freed⟩ := by
              rw [← hok]
              unfold St.setEntry
              dsimp only
              rw [ht0]
            refine ⟨a1, t1x, a2, t0.set ((v >>> 12) % 512)
                (ppn_of_paddr p <<< 10 ||| permBits perm <<< 1 ||| 1), ?_, ?_, ?_, ?_, ?_⟩
            · rw [hset]
              exact hk1
            · rw [hset]
              simp only
              rw [St.memGet_memSet_ne _ _ _ _ (Ne.symm hne)]
              exact ht1x'
            · exact hk2
            · rw [hset]
              exact St.memGet_memSet_self _ _ _ (by rw [ht0]; rfl)
            · apply Tbl.get_set_self
              have := hmemlen (a2, t0) (memGet_some_mem _ _ _ ht0)
              simp only at this
              rw [this]
              exact Nat.mod_lt _ (by norm_num)
        · -- second entry was invalid; fresh table a2
          have hfresh2 := hsupp a2 (by rw [hsupply2]; exact List.mem_cons_self _ _)
          have hne : a2 ≠ a1 := by
            intro hEq
            exact hfresh2.2.2.2.1 (hEq ▸ ha1keys)
          rw [hB] at hok
          have hmg : St.memGet ((a2, Tbl.new) :: st.mem) a1 = some t1x := by
            simp only [St.memGet, hne, if_false]
            exact ht1x'
          have hstB : St.setEntry ⟨st.rootAddr, st.root, (a2, Tbl.new) :: st.mem,
                rest2, st.freed⟩ (.tbl a1) ((v >>> 21) % 512)
                (ppn_of_paddr a2 <<< 10 ||| 1) =
              ⟨st.rootAddr, st.root,
                (a2, Tbl.new) :: St.memSet st.mem a1 (t1x.set ((v >>> 21) % 512)
                  (ppn_of_paddr a2 <<< 10 ||| 1)),
                rest2, st.freed⟩ := by
            unfold St.setEntry
            dsimp only
            rw [hmg]
            simp only [St.memSet, hne, if_false]
          rw [hstB] at hok
          have hset : st1 = ⟨st.rootAddr, st.root,
              (a2, Tbl.new.set ((v >>> 12) % 512)
                (ppn_of_paddr p <<< 10 ||| permBits perm <<< 1 ||| 1)) ::
                St.memSet st.mem a1 (t1x.set ((v >>> 21) % 512)
                  (ppn_of_paddr a2 <<< 10 ||| 1)),
              rest2, st.freed⟩ := by
            rw [← hok]
            unfold St.setEntry
            dsimp only
            rw [show St.memGet ((a2, Tbl.new) :: St.memSet st.mem a1
                (t1x.set ((v >>> 21) % 512) (ppn_of_paddr a2 <<< 10 ||| 1))) a2 =
                some Tbl.new by simp [St.memGet]]
            simp [St.memSet]
          refine ⟨a1, t1x.set ((v >>> 21) % 512) (ppn_of_paddr a2 <<< 10 ||| 1),
              a2, Tbl.new.set ((v >>> 12) % 512)
                (ppn_of_paddr p <<< 10 ||| permBits perm <<< 1 ||| 1), ?_, ?_, ?_, ?_, ?_⟩
          · rw [hset]
            exact hk1
          · rw [hset]
            simp only [St.memGet, hne, if_false]
            exact St.memGet_memSet_self _ _ _ ht1some
          · rw [Tbl.get_set_self _ _ _ (by rw [ht1len]; exact Nat.mod_lt _ (by norm_num))]
            exact entryKind_branchE a2 hfresh2.2.1 hfresh2.2.2.1
          · rw [hset]
            simp [St.memGet]
          · apply Tbl.get_set_self
            rw [Tbl.new_len]
            exact Nat.mod_lt _ (by norm_num)
      · -- root entry was invalid; fresh table a1
        have hfresh1 := hsupp a1 (by rw [hsupply]; exact List.mem_cons_self _ _)
        have hA2 : stA = ⟨st.rootAddr,
            st.root.set ((v >>> 30) % 512) (ppn_of_paddr a1 <<< 10 ||| 1),
            (a1, Tbl.new) :: st.mem, rest, st.freed⟩ := by
          rw [hA]
          unfold St.setEntry
          dsimp only
        have ht1x' : t1x = Tbl.new := by
          rw [hA2] at ht1x
          simp [St.getTbl, St.memGet] at ht1x
          exact ht1x.symm
        subst ht1x'
        rcases hcase2 with ⟨hk2, hB⟩ | ⟨hk2, rest2, hsupply2, hB⟩
        · -- impossible: a fresh table has no branch entries
          rw [Tbl.new_get, entryKind_zero] at hk2
          exact absurd hk2 (by simp)
        · -- fresh a2 below fresh a1
          rw [hA2] at hsupply2
          simp only at hsupply2
          have ha2rest : a2 ∈ rest := by rw [hsupply2]; exact List.mem_cons_self _ _
          have hne : a1 ≠ a2 := by
            intro hEq
            rw [hsupply] at hsup
            exact (List.nodup_cons.1 hsup).1 (hEq ▸ ha2rest)
          have hfresh2 := hsupp a2 (by rw [hsupply]; exact List.mem_cons_of_mem _ ha2rest)
          rw [hB, hA2] at hok
          have hmg : St.memGet ((a2, Tbl.new) :: (a1, Tbl.new) :: st.mem) a1 =
              some Tbl.new := by
            simp [St.memGet, Ne.symm hne]
          have hstB : St.setEntry ⟨st.rootAddr,
                st.root.set ((v >>> 30) % 512) (ppn_of_paddr a1 <<< 10 ||| 1),
                (a2, Tbl.new) :: (a1, Tbl.new) :: st.mem,
                rest2, st.freed⟩ (.tbl a1) ((v >>> 21) % 512)
                (ppn_of_paddr a2 <<< 10 ||| 1) =
              ⟨st.rootAddr,
                st.root.set ((v >>> 30) % 512) (ppn_of_paddr a1 <<< 10 ||| 1),
                (a2, Tbl.new) :: (a1, Tbl.new.set ((v >>> 21) % 512)
                  (ppn_of_paddr a2 <<< 10 ||| 1)) :: st.mem,
                rest2, st.freed⟩ := by
            unfold St.setEntry
            dsimp only
            rw [hmg]
            simp [St.memSet, Ne.symm hne]
          rw [hstB] at hok
          have hset : st1 = ⟨st.rootAddr,
              st.root.set ((v >>> 30) % 512) (ppn_of_paddr a1 <<< 10 ||| 1),
              (a2, Tbl.new.set ((v >>> 12) % 512)
                (ppn_of_paddr p <<< 10 ||| permBits perm <<< 1 ||| 1)) ::
                (a1, Tbl.new.set ((v >>> 21) % 512)
                  (ppn_of_paddr a2 <<< 10 ||| 1)) :: st.mem,
              rest2, st.freed⟩ := by
            rw [← hok]
            unfold St.setEntry
            dsimp only
            rw [show St.memGet ((a2, Tbl.new) :: (a1, Tbl.new.set ((v >>> 21) % 512)
                (ppn_of_paddr a2 <<< 10 ||| 1)) :: st.mem) a2 = some Tbl.new by
              simp [St.memGet]]
            simp [St.memSet]
          refine ⟨a1, Tbl.new.set ((v >>> 21) % 512) (ppn_of_paddr a2 <<< 10 ||| 1),
              a2, Tbl.new.set ((v >>> 12) % 512)
                (ppn_of_paddr p <<< 10 ||| permBits perm <<< 1 ||| 1), ?_, ?_, ?_, ?_, ?_⟩
          · rw [hset]
            simp only
            rw [Tbl.get_set_self _ _ _ (by rw [hlen512]; exact Nat.mod_lt _ (by norm_num))]
            exact entryKind_branchE a1 hfresh1.2.1 hfresh1.2.2.1
          · rw [hset]
            simp [St.memGet, Ne.symm hne]
          · rw [Tbl.get_set_self _ _ _ (by rw [Tbl.new_len]; exact Nat.mod_lt _ (by norm_num))]
            exact entryKind_branchE a2 hfresh2.2.1 hfresh2.2.2.1
          · rw [hset]
            simp [St.memGet]
          · apply Tbl.get_set_self
            rw [Tbl.new_len]
            exact Nat.mod_lt _ (by norm_num)


/-- Alignment to any leaf page size implies page alignment. -/
theorem aligned_4096 (S : PageSize) (p : Nat) (h : S.is_aligned p = true) :
    p % 4096 = 0 := by
  cases S <;> simp [PageSize.is_aligned, PageSize.size] at h <;> omega

/-- Physical-address decode of a just-written leaf entry. -/
theorem entryPpn_leafE (p pb : Nat) (hpb : pb < 8) (hal : p % 4096 = 0)
    (hp : p < 2 ^ 56) :
    Entry.ppn (ppn_of_paddr p <<< 10 ||| pb <<< 1 ||| 1) = p := by
  rw [Nat.lor_assoc]
  apply entryPpn_decode p _ _ hal hp
  apply or_lt_two_pow
  · have h1 : pb <<< 1 = pb * 2 := Nat.shiftLeft_eq pb 1 ▸ rfl
    have h2 : (2 : Nat) ^ 10 = 1024 := by norm_num
    omega
  · norm_num

/-- Claim C5 (amended): a successful `map` from a well-formed state,
with a physical address below `2^56` and a *nonzero* permission set,
makes `translate` return `Some((p + (v & mask(size)), size))`. -/
theorem map_translate (st st1 : St) (p v : Nat) (S : PageSize) (perm : Nat)
    (hwf : St.WF st) (hp : p < 2 ^ 56) (hperm : permBits perm ≠ 0)
    (hok : St.map st p v S perm = .ok st1) :
    St.translate st1 v = some (p + (v &&& specMask S), S) := by
  have hpb : permBits perm < 8 := Nat.mod_lt _ (by norm_num)
  cases S with
  | gigapage =>
    obtain ⟨hst1, halp⟩ := map_giga_structure st st1 p v perm hok
    have hal4 : p % 4096 = 0 := aligned_4096 _ _ halp
    have hget : st1.root.get ((v >>> 30) % 512) =
        ppn_of_paddr p <<< 10 ||| permBits perm <<< 1 ||| 1 := by
      rw [hst1]
      unfold St.setEntry
      dsimp only
      apply Tbl.get_set_self
      rw [hwf.1]
      exact Nat.mod_lt _ (by norm_num)
    have hwalk : St.walkEntry st1 v = some (.root, (v >>> 30) % 512,
        ppn_of_paddr p <<< 10 ||| permBits perm <<< 1 ||| 1, .gigapage) := by
      unfold St.walkEntry
      simp only [vpns_of_vaddr]
      rw [hget, entryKind_leafE p (permBits perm) hpb hperm]
    unfold St.translate
    rw [hwalk]
    dsimp only
    rw [entryPpn_leafE p (permBits perm) hpb hal4 hp]
    rfl
  | megapage =>
    obtain ⟨⟨a1, t1, hk1, hmem1, hleaf⟩, halp⟩ :=
      map_mega_structure st st1 p v perm hwf hok
    have hal4 : p % 4096 = 0 := aligned_4096 _ _ halp
    have hwalk : St.walkEntry st1 v = some (.tbl a1, (v >>> 21) % 512,
        ppn_of_paddr p <<< 10 ||| permBits perm <<< 1 ||| 1, .megapage) := by
      unfold St.walkEntry
      simp only [vpns_of_vaddr]
      rw [hk1]
      dsimp only
      rw [hmem1]
      dsimp only
      rw [hleaf, entryKind_leafE p (permBits perm) hpb hperm]
    unfold St.translate
    rw [hwalk]
    dsimp only
    rw [entryPpn_leafE p (permBits perm) hpb hal4 hp]
    rfl
  | kilopage =>
    obtain ⟨⟨a1, t1, a2, t0, hk1, hmem1, hk2, hmem2, hleaf⟩, halp⟩ :=
      map_kilo_structure st st1 p v perm hwf hok
    have hal4 : p % 4096 = 0 := aligned_4096 _ _ halp
    have hwalk : St.walkEntry st1 v = some (.tbl a2, (v >>> 12) % 512,
        ppn_of_paddr p <<< 10 ||| permBits perm <<< 1 ||| 1, .kilopage) := by
      unfold St.walkEntry
      simp only [vpns_of_vaddr]
      rw [hk1]
      dsimp only
      rw [hmem1]
      dsimp only
      rw [hk2]
      dsimp only
      rw [hmem2]
      dsimp only
      rw [hleaf, entryKind_leafE p (permBits perm) hpb hperm]
    unfold St.translate
    rw [hwalk]
    dsimp only
    rw [entryPpn_leafE p (permBits perm) hpb hal4 hp]
    rfl


/-- Alignment facts recovered from a successful `map`. -/
theorem map_ok_aligned (st st1 : St) (p v : Nat) (S : PageSize) (perm : Nat)
    (hok : St.map st p v S perm = .ok st1) :
    S.is_aligned p = true ∧ S.is_aligned v = true := by
  unfold St.map at hok
  split at hok
  · exact absurd hok (by simp)
  · rename_i hal
    push_neg at hal
    exact hal

/-- Claim C6 (amended): a `map` identical to an immediately preceding
successful `map` also returns `Ok` — the final-level entry is
overwritten without inspection, and `AlreadyMapped` is not returned. -/
theorem second_identical_map_succeeds (st st1 : St) (p v : Nat) (S : PageSize)
    (perm : Nat) (hwf : St.WF st) (hok : St.map st p v S perm = .ok st1) :
    (St.map st1 p v S perm).toOption.isSome = true := by
  obtain ⟨halp, halv⟩ := map_ok_aligned st st1 p v S perm hok
  have hneg : ¬¬(S.is_aligned p = true ∧ S.is_aligned v = true) :=
    not_not_intro ⟨halp, halv⟩
  cases S with
  | gigapage =>
    unfold St.map
    rw [if_neg hneg]
    rfl
  | megapage =>
    obtain ⟨⟨a1, t1, hk1, hmem1, hleaf⟩, _⟩ :=
      map_mega_structure st st1 p v perm hwf hok
    have hg : St.get_next_level st1 .root ((v >>> 30) % 512) = .ok (st1, a1) := by
      unfold St.get_next_level St.getTbl
      dsimp only
      rw [hk1]
    unfold St.map
    rw [if_neg hneg]
    simp only [vpns_of_vaddr]
    rw [hg]
    rfl
  | kilopage =>
    obtain ⟨⟨a1, t1, a2, t0, hk1, hmem1, hk2, hmem2, hleaf⟩, _⟩ :=
      map_kilo_structure st st1 p v perm hwf hok
    have hg1 : St.get_next_level st1 .root ((v >>> 30) % 512) = .ok (st1, a1) := by
      unfold St.get_next_level St.getTbl
      dsimp only
      rw [hk1]
    have hg2 : St.get_next_level st1 (.tbl a1) ((v >>> 21) % 512) = .ok (st1, a2) := by
      unfold St.get_next_level St.getTbl
      dsimp only
      rw [hmem1]
      dsimp only
      rw [hk2]
    unfold St.map
    rw [if_neg hneg]
    simp only [vpns_of_vaddr]
    rw [hg1]
    dsimp only
    rw [hg2]
    rfl

set_option maxRecDepth 8192 in
/-- Claim C5, counterexample.  `map(0x5000, 0x1000, Kilopage, perm = 0)`
succeeds (the trace is `some _`), but the written leaf has zero
permission bits, which the walk decodes as a branch: `translate`
returns `none`, not `Some((p + (v & mask), Kilopage))`. -/
theorem map_zero_perm_translate_mismatch :
    sv39PermZeroTrace = some none ∧
      some (0x5000 + (0x1000 &&& specMask PageSize.kilopage), PageSize.kilopage) ≠
        (none : Option (Nat × PageSize)) := by
  exact ⟨by rfl, by decide⟩

set_option maxRecDepth 8192 in
/-- Witness for `map_translate`: the concrete Kilopage map of
`0x5000` at `0x40201000` with permissions `R|W` on the fresh state,
then `translate` of the same address. -/
theorem map_translate_witness :
    St.WF sv39St0 ∧ (0x5000 : Nat) < 2 ^ 56 ∧ permBits 3 ≠ 0 ∧
      St.translate sv39St1 0x40201000 =
        some (0x5000 + (0x40201000 &&& specMask PageSize.kilopage), PageSize.kilopage) :=
  ⟨by decide, by decide, by decide,
    map_translate sv39St0 sv39St1 0x5000 0x40201000 .kilopage 3 (by decide) (by decide)
      (by decide) (by rfl)⟩

set_option maxRecDepth 8192 in
/-- Claim C6, counterexample.  The identical second `map` returns
`Ok(())`, not the `AlreadyMapped` error the claim requires. -/
theorem second_identical_map_not_already_mapped :
    (sv39DoubleMapTrace.map fun _ => ()) = .ok () ∧
      sv39DoubleMapTrace ≠ .error .alreadyMapped := by
  have hOK : (sv39DoubleMapTrace.map fun _ => ()) = .ok () := by rfl
  refine ⟨hOK, ?_⟩
  intro h
  rw [h] at hOK
  exact absurd hOK (by simp [Except.map])

set_option maxRecDepth 8192 in
/-- Witness for `second_identical_map_succeeds` at the concrete double
Kilopage map. -/
theorem second_identical_map_succeeds_witness :
    (St.map sv39DoubleSt1 0x5000 0x1000 .kilopage 1).toOption.isSome = true :=
  second_identical_map_succeeds sv39St0 sv39DoubleSt1 0x5000 0x1000 .kilopage 1
    (by decide) (by rfl)


theorem getD_set_self {α : Type} (l : List α) (i : Nat) (v d : α)
    (h : i < l.length) : (l.set i v).getD i d = v := by
  rw [List.getD_eq_getElem?_getD, List.getElem?_set_self', List.getElem?_eq_getElem h]
  simp [Function.const]

theorem getD_set_ne {α : Type} (l : List α) (i j : Nat) (v d : α)
    (h : i ≠ j) : (l.set i v).getD j d = l.getD j d := by
  rw [List.getD_eq_getElem?_getD, List.getElem?_set_ne h, ← List.getD_eq_getElem?_getD]

namespace RangeSet

theorem mergeLoop_done (fuel : Nat) (s : RangeSet) (r : RSRange) (i bound : Nat)
    (h : i ≥ bound) (hf : fuel ≠ 0) :
    mergeLoop fuel s r i bound = .ok (s, r) := by
  cases fuel with
  | zero => exact absurd rfl hf
  | succ f =>
    unfold mergeLoop
    rw [if_pos h]

theorem removeLoop_done (fuel : Nat) (s : RangeSet) (r : RSRange) (i bound : Nat)
    (h : i ≥ bound) (hf : fuel ≠ 0) :
    removeLoop fuel s r i bound = .ok s := by
  cases fuel with
  | zero => exact absurd rfl hf
  | succ f =>
    unfold removeLoop
    rw [if_pos h]

theorem removeLoop_skip (fuel : Nat) (s : RangeSet) (r : RSRange) (i bound : Nat)
    (h : ¬ i ≥ bound) (hov : rsOverlaps r (s.getRange i) = false) (hf : fuel ≠ 0) :
    removeLoop fuel s r i bound = removeLoop (fuel - 1) s r (i + 1) bound := by
  cases fuel with
  | zero => exact absurd rfl hf
  | succ f =>
    conv_lhs => unfold removeLoop
    rw [if_neg h, if_pos]
    · rfl
    · simp [hov]

theorem removeLoop_trimStart (fuel : Nat) (s : RangeSet) (r : RSRange) (i bound : Nat)
    (h : ¬ i ≥ bound) (hov : rsOverlaps r (s.getRange i) = true)
    (hcont : rsContains (s.getRange i) r = false)
    (hle : r.start ≤ (s.getRange i).start) (hf : fuel ≠ 0) :
    removeLoop fuel s r i bound =
      removeLoop (fuel - 1) (s.setRange i ⟨satAdd r.stop 1, (s.getRange i).stop⟩)
        r (i + 1) bound := by
  cases fuel with
  | zero => exact absurd rfl hf
  | succ f =>
    conv_lhs => unfold removeLoop
    rw [if_neg h, if_neg (by simp [hov]), if_neg (by simp [hcont]), if_pos hle]
    rfl

theorem removeLoop_split (fuel : Nat) (s : RangeSet) (r : RSRange) (i bound : Nat)
    (h : ¬ i ≥ bound) (hov : rsOverlaps r (s.getRange i) = true)
    (hcont : rsContains (s.getRange i) r = false)
    (hgt : ¬ r.start ≤ (s.getRange i).start)
    (hgt2 : ¬ r.stop ≥ (s.getRange i).stop)
    (hroom : ¬ s.idx ≥ RANGE_COUNT) (hf : fuel ≠ 0) :
    removeLoop fuel s r i bound =
      (match removeLoop (fuel - 1)
          (RangeSet.mk ((s.ranges.set s.idx ⟨satAdd r.start 1, (s.getRange i).stop⟩).set i
            ⟨(s.getRange i).start, r.start - 1⟩) (s.idx + 1)) r 0 (s.idx + 1) with
      | .error e => .error e
      | .ok s₃ => removeLoop (fuel - 1) s₃ r (i + 1) bound) := by
  cases fuel with
  | zero => exact absurd rfl hf
  | succ f =>
    conv_lhs => unfold removeLoop
    rw [if_neg h, if_neg (by simp [hov]), if_neg (by simp [hcont]), if_neg hgt,
      if_neg hgt2, if_neg hroom]
    rfl

end RangeSet


theorem satAdd_small (a b : Nat) (h : a + b ≤ USIZE_MAX) : satAdd a b = a + b := by
  unfold satAdd
  omega

theorem take_two_of_len32 (l : List RSRange) (hl : l.length = 32) :
    l.take 2 = [l.getD 0 ⟨0, 0⟩, l.getD 1 ⟨0, 0⟩] := by
  match l with
  | [] => simp at hl
  | [a] => simp at hl
  | a :: b :: rest => simp [List.take, List.getD]

set_option maxHeartbeats 1000000 in
/-- Claim C2 (confirmed).  Removing a range `r` strictly inside the
only stored range `o` replaces `o` with exactly
`[o.start, r.start - 1]` and `[r.stop + 1, o.stop]`. -/
theorem remove_range_splits_inside (o r : RSRange) (h1 : o.start < r.start)
    (h2 : r.stop < o.stop) (hr : r.start ≤ r.stop) (ho : o.stop ≤ USIZE_MAX) :
    ((RangeSet.new.insert o).bind fun s => s.removeRange r).map RangeSet.asSlice =
      .ok [⟨o.start, r.start - 1⟩, ⟨r.stop + 1, o.stop⟩] := by
  have hins : RangeSet.new.insert o =
      .ok ⟨(List.replicate 32 (⟨0, 0⟩ : RSRange)).set 0 o, 1⟩ := by
    unfold RangeSet.insert
    rw [if_neg (by omega : ¬ o.start > o.stop)]
    rw [RangeSet.mergeLoop_done RangeSet.INSERT_FUEL RangeSet.new o 0 RangeSet.new.idx
      (by decide) (by decide)]
    rfl
  rw [hins]
  show (RangeSet.removeRange ⟨(List.replicate 32 (⟨0, 0⟩ : RSRange)).set 0 o, 1⟩ r).map
      RangeSet.asSlice = _
  set s₀ : RangeSet := ⟨(List.replicate 32 (⟨0, 0⟩ : RSRange)).set 0 o, 1⟩ with hs₀
  clear_value s₀
  have hlen0 : s₀.ranges.length = 32 := by
    rw [hs₀]
    simp
  have hget0 : s₀.getRange 0 = o := by
    rw [hs₀]
    unfold RangeSet.getRange
    exact getD_set_self _ _ _ _ (by simp)
  have hidx0 : s₀.idx = 1 := by rw [hs₀]
  unfold RangeSet.removeRange
  rw [if_neg (by omega : ¬ r.start > r.stop)]
  rw [hidx0]
  rw [RangeSet.removeLoop_split RangeSet.REMOVE_FUEL s₀ r 0 1 (by omega)
    (by simp [rsOverlaps, hget0]; omega)
    (by simp [rsContains, hget0]; omega)
    (by rw [hget0]; omega)
    (by rw [hget0]; omega)
    (by rw [hidx0]; simp [RANGE_COUNT])
    (by decide)]
  rw [hget0, hidx0]
  rw [satAdd_small r.start 1 (by omega)]
  show (match RangeSet.removeLoop (RangeSet.REMOVE_FUEL - 1)
      ⟨((s₀.ranges.set 1 ⟨r.start + 1, o.stop⟩).set 0 ⟨o.start, r.start - 1⟩), 2⟩
      r 0 2 with
    | .error e => Except.error e
    | .ok s₃ => RangeSet.removeLoop (RangeSet.REMOVE_FUEL - 1) s₃ r 1 1).map
      RangeSet.asSlice = _
  set s₂ : RangeSet :=
    ⟨((s₀.ranges.set 1 ⟨r.start + 1, o.stop⟩).set 0 ⟨o.start, r.start - 1⟩), 2⟩ with hs₂
  clear_value s₂
  have hidx2 : s₂.idx = 2 := by rw [hs₂]
  have hlen2 : s₂.ranges.length = 32 := by
    rw [hs₂]
    simp [hlen0]
  have hget20 : s₂.getRange 0 = ⟨o.start, r.start - 1⟩ := by
    rw [hs₂]
    unfold RangeSet.getRange
    exact getD_set_self _ _ _ _ (by simp [hlen0])
  have hget21 : s₂.getRange 1 = ⟨r.start + 1, o.stop⟩ := by
    rw [hs₂]
    unfold RangeSet.getRange
    simp only
    rw [getD_set_ne _ _ _ _ _ (by omega)]
    exact getD_set_self _ _ _ _ (by simp [hlen0])
  rw [RangeSet.removeLoop_skip (RangeSet.REMOVE_FUEL - 1) s₂ r 0 2 (by omega)
    (by simp [rsOverlaps, hget20]; omega) (by decide)]
  by_cases hss : r.start < r.stop
  · -- the upper half still overlaps `r` and is trimmed
    rw [RangeSet.removeLoop_trimStart (RangeSet.REMOVE_FUEL - 1 - 1) s₂ r 1 2 (by omega)
      (by simp [rsOverlaps, hget21]; omega)
      (by simp [rsContains, hget21]; omega)
      (by rw [hget21]; dsimp only; omega) (by decide)]
    rw [hget21]
    dsimp only
    rw [satAdd_small r.stop 1 (by omega)]
    rw [RangeSet.removeLoop_done (RangeSet.REMOVE_FUEL - 1 - 1 - 1)
      (s₂.setRange 1 ⟨r.stop + 1, o.stop⟩) r 2 2 (by omega) (by decide)]
    show Except.map RangeSet.asSlice (RangeSet.removeLoop (RangeSet.REMOVE_FUEL - 1)
      (s₂.setRange 1 ⟨r.stop + 1, o.stop⟩) r 1 1) = _
    rw [RangeSet.removeLoop_done (RangeSet.REMOVE_FUEL - 1)
      (s₂.setRange 1 ⟨r.stop + 1, o.stop⟩) r 1 1 (by omega) (by decide)]
    show Except.ok (RangeSet.asSlice (s₂.setRange 1 ⟨r.stop + 1, o.stop⟩)) = _
    unfold RangeSet.asSlice RangeSet.setRange
    simp only
    rw [hidx2]
    rw [take_two_of_len32 _ (by simp [hlen2])]
    rw [getD_set_ne _ _ _ _ _ (by omega), getD_set_self _ _ _ _ (by omega)]
    have hx : s₂.ranges.getD 0 ⟨0, 0⟩ = ⟨o.start, r.start - 1⟩ := hget20
    rw [hx]
  · -- `r` is a single address: the upper half already starts past it
    rw [RangeSet.removeLoop_skip (RangeSet.REMOVE_FUEL - 1 - 1) s₂ r 1 2 (by omega)
      (by simp [rsOverlaps, hget21]; omega) (by decide)]
    rw [RangeSet.removeLoop_done (RangeSet.REMOVE_FUEL - 1 - 1 - 1) s₂ r 2 2
      (by omega) (by decide)]
    show Except.map RangeSet.asSlice
      (RangeSet.removeLoop (RangeSet.REMOVE_FUEL - 1) s₂ r 1 1) = _
    rw [RangeSet.removeLoop_done (RangeSet.REMOVE_FUEL - 1) s₂ r 1 1 (by omega) (by decide)]
    show Except.ok (RangeSet.asSlice s₂) = _
    unfold RangeSet.asSlice
    rw [hidx2]
    rw [take_two_of_len32 _ hlen2]
    have hx : s₂.ranges.getD 0 ⟨0, 0⟩ = ⟨o.start, r.start - 1⟩ := hget20
    have hy : s₂.ranges.getD 1 ⟨0, 0⟩ = ⟨r.start + 1, o.stop⟩ := hget21
    rw [hx, hy]
    have hz : r.start + 1 = r.stop + 1 := by omega
    rw [hz]


/-- Witness for `remove_range_splits_inside`: scenario S2 of the spec. -/
theorem remove_range_splits_inside_witness :
    ((RangeSet.new.insert ⟨0x80200000, 0x8FFFFFFF⟩).bind fun s =>
        s.removeRange ⟨0x83000000, 0x84000000⟩).map RangeSet.asSlice =
      .ok [⟨0x80200000, 0x82FFFFFF⟩, ⟨0x84000001, 0x8FFFFFFF⟩] := by
  have h := remove_range_splits_inside ⟨0x80200000, 0x8FFFFFFF⟩ ⟨0x83000000, 0x84000000⟩
    (by decide) (by decide) (by decide) (by decide)
  exact h


theorem usize_max_value : USIZE_MAX = 18446744073709551615 := by
  norm_num [USIZE_MAX]

theorem touches_symm (a b : RSRange) : touches a b = touches b a := by
  unfold touches rsOverlaps
  dsimp only
  rw [Bool.and_comm]

/-- The hull of two touching (overlapping or adjacent) valid ranges
covers exactly their union. -/
theorem hull_touch_union (r o : RSRange) (hT : touches r o = true)
    (hrm : r.stop ≤ USIZE_MAX) (hom : o.stop ≤ USIZE_MAX) (x : Nat) :
    inRange x ⟨min r.start o.start, max r.stop o.stop⟩ ↔
      (inRange x r ∨ inRange x o) := by
  unfold touches rsOverlaps satAdd at hT
  rw [usize_max_value] at hT hrm hom
  simp only [Bool.and_eq_true, decide_eq_true_eq] at hT
  unfold inRange
  dsimp only
  omega

/-- Not touching implies strictly disjoint and non-adjacent (for
`u64` ranges). -/
theorem not_touches_separated (a b : RSRange) (hT : touches a b = false)
    (hav : a.start ≤ a.stop) (ham : a.stop ≤ USIZE_MAX)
    (hbv : b.start ≤ b.stop) (hbm : b.stop ≤ USIZE_MAX) :
    rsOverlaps a b = false ∧ a.stop + 1 ≠ b.start := by
  unfold touches at hT
  unfold rsOverlaps at hT ⊢
  unfold satAdd at hT
  dsimp only at hT ⊢
  rw [usize_max_value] at hT ham hbm
  simp only [Bool.and_eq_false_iff, decide_eq_false_iff_not] at hT ⊢
  omega

/-- Index access into the `rotate_left`-style removal used by
`RangeSet::remove`. -/
theorem getD_erase {α : Type} (l : List α) (i j : Nat) (d x : α)
    (hi : i < l.length) (hj : j < l.length - 1) :
    (l.take i ++ l.drop (i + 1) ++ [x]).getD j d =
      if j < i then l.getD j d else l.getD (j + 1) d := by
  have hti : (l.take i).length = i := by
    simp
    omega
  rw [List.getD_eq_getElem?_getD]
  rw [List.getElem?_append]
  rw [if_pos (by simp; omega)]
  rw [List.getElem?_append]
  by_cases h : j < i
  · rw [if_pos (by rw [hti]; omega)]
    rw [List.getElem?_take, if_pos h]
    simp [List.getD_eq_getElem?_getD, h]
  · rw [if_neg (by rw [hti]; omega)]
    rw [List.getElem?_drop, hti]
    rw [show i + 1 + (j - i) = j + 1 by omega]
    simp [List.getD_eq_getElem?_getD, h]

/-- Anatomy of a successful `RangeSet::remove`. -/
theorem removeAt_ok (s : RangeSet) (i : Nat) (s₁ : RangeSet)
    (h : s.removeAt i = .ok s₁) :
    i < s.idx ∧
    s₁.ranges = s.ranges.take i ++ s.ranges.drop (i + 1) ++ [s.getRange i] ∧
    s₁.idx = s.idx - 1 := by
  unfold RangeSet.removeAt at h
  split at h
  · exact absurd h (by simp)
  · rename_i hlt
    simp only [Except.ok.injEq] at h
    subst h
    exact ⟨by omega, rfl, rfl⟩

/-- A successful `remove` keeps the raw array at 32 slots. -/
theorem length_removeAt (s : RangeSet) (i : Nat) (s₁ : RangeSet)
    (h : s.removeAt i = .ok s₁) (hlen : s.ranges.length = 32) (hi32 : i < 32) :
    s₁.ranges.length = 32 := by
  obtain ⟨hi, hr, _⟩ := removeAt_ok s i s₁ h
  rw [hr]
  simp
  omega

/-- Slot contents after a successful `remove`: below the removed index
nothing moves, above it everything shifts down one. -/
theorem getRange_removeAt (s : RangeSet) (i : Nat) (s₁ : RangeSet)
    (h : s.removeAt i = .ok s₁) (hlen : s.ranges.length = 32) (hi32 : i < 32)
    (j : Nat) (hj : j < 31) :
    s₁.getRange j = if j < i then s.getRange j else s.getRange (j + 1) := by
  obtain ⟨hi, hr, _⟩ := removeAt_ok s i s₁ h
  unfold RangeSet.getRange
  rw [hr]
  exact getD_erase s.ranges i j ⟨0, 0⟩ (s.getRange i) (by omega) (by omega)

/-- Index-based live membership agrees with membership in `as_slice`
whenever the live count is within the array. -/
theorem liveMem_iff_inSet (x : Nat) (s : RangeSet) (h : s.idx ≤ s.ranges.length) :
    liveMem x s ↔ inSet x s := by
  unfold liveMem inSet RangeSet.asSlice RangeSet.getRange
  constructor
  · rintro ⟨j, hj, hx⟩
    have hj' : j < (s.ranges.take s.idx).length := by
      simp
      omega
    refine ⟨(s.ranges.take s.idx)[j], List.getElem_mem hj', ?_⟩
    rw [List.getElem_take]
    rwa [List.getD_eq_getElem?_getD, List.getElem?_eq_getElem (by omega),
      Option.getD_some] at hx
  · rintro ⟨rr, hm, hx⟩
    obtain ⟨j, hj, he⟩ := List.mem_iff_getElem.mp hm
    have hjt : j < s.idx := by
      simp at hj
      omega
    refine ⟨j, hjt, ?_⟩
    rw [List.getD_eq_getElem?_getD, List.getElem?_eq_getElem (by omega),
      Option.getD_some]
    rw [List.getElem_take] at he
    rwa [he]

/-- Unfolding equation for one step of the `merge_blocks` loop. -/
theorem mergeLoop_succ (fuel : Nat) (s : RangeSet) (r : RSRange) (i bound : Nat) :
    RangeSet.mergeLoop (fuel + 1) s r i bound =
      if i ≥ bound then .ok (s, r)
      else if touches r (s.getRange i) then
        match s.removeAt i with
        | .error _ => .error .panicOOB
        | .ok s₁ =>
          match RangeSet.mergeLoop fuel s₁
              ⟨min r.start (s.getRange i).start, max r.stop (s.getRange i).stop⟩
              0 s₁.idx with
          | .error e => .error e
          | .ok (s₂, r₂) => RangeSet.mergeLoop fuel s₂ r₂ (i + 1) bound
      else RangeSet.mergeLoop fuel s r (i + 1) bound := by
  rfl

/-- Full specification of a successful run of the `merge_blocks` loop:
starting from a 32-slot state whose live ranges are valid and pairwise
non-touching, the run can only shrink the live count, preserves
validity and pairwise separation, ends with the accumulated range
touching no survivor, and preserves the pointwise union of the
accumulated range with the live ranges.  The mode hypothesis
distinguishes the top-level frame (where `bound` equals the live
count and no already-scanned slot touches `r`) from a continuation
frame after an inner merge (where no live slot at all touches `r`);
in a continuation frame a touching read is necessarily a stale slot,
which makes `remove(idx).unwrap()` panic, excluded by the success
hypothesis. -/
theorem mergeLoop_spec (fuel : Nat) :
    ∀ (s : RangeSet) (r : RSRange) (i bound : Nat) (s' : RangeSet) (r' : RSRange),
    s.ranges.length = 32 → bound ≤ 32 → s.idx ≤ bound →
    LiveValid s → PairwiseNT s →
    r.start ≤ r.stop → r.stop ≤ USIZE_MAX →
    ((s.idx = bound ∧ ∀ j, j < i → touches r (s.getRange j) = false) ∨
      (∀ j, j < s.idx → touches r (s.getRange j) = false)) →
    RangeSet.mergeLoop fuel s r i bound = .ok (s', r') →
    s'.ranges.length = 32 ∧ s'.idx ≤ s.idx ∧ LiveValid s' ∧ PairwiseNT s' ∧
    r'.start ≤ r'.stop ∧ r'.stop ≤ USIZE_MAX ∧
    (∀ j, j < s'.idx → touches r' (s'.getRange j) = false) ∧
    (∀ x, (inRange x r' ∨ liveMem x s') ↔ (inRange x r ∨ liveMem x s)) := by
  induction fuel with
  | zero =>
    intro s r i bound s' r' _ _ _ _ _ _ _ _ hok
    simp [RangeSet.mergeLoop] at hok
  | succ f ih =>
    intro s r i bound s' r' hlen hb hib hlv hpw hrv hrm hmode hok
    rw [mergeLoop_succ] at hok
    split at hok
    · -- loop finished: i ≥ bound
      rename_i hge
      simp only [Except.ok.injEq, Prod.mk.injEq] at hok
      obtain ⟨h1, h2⟩ := hok
      subst h1
      subst h2
      refine ⟨hlen, le_refl _, hlv, hpw, hrv, hrm, ?_, fun x => Iff.rfl⟩
      rcases hmode with ⟨hA, hA2⟩ | hB
      · intro j hj
        exact hA2 j (by omega)
      · exact hB
    · rename_i hge
      split at hok
      · -- `other` touches `r`: merge
        rename_i hT
        split at hok
        · -- remove failed: the modelled panic, impossible on success
          rename_i e heq
          exact absurd hok (by simp)
        · rename_i s₁ heq
          obtain ⟨hi, _, hidx₁⟩ := removeAt_ok s i s₁ heq
          -- in a continuation frame a touching slot cannot be live
          have hmodeA : s.idx = bound ∧ ∀ j, j < i → touches r (s.getRange j) = false := by
            rcases hmode with h | hB
            · exact h
            · exact absurd (hB i hi) (by simp [hT])
          obtain ⟨hAidx, hApre⟩ := hmodeA
          have hi32 : i < 32 := by omega
          have hlen₁ := length_removeAt s i s₁ heq hlen hi32
          have hget₁ := getRange_removeAt s i s₁ heq hlen hi32
          have hlv₁ : LiveValid s₁ := by
            intro j hj
            rw [hget₁ j (by omega)]
            split
            · exact hlv j (by omega)
            · exact hlv (j + 1) (by omega)
          have hpw₁ : PairwiseNT s₁ := by
            intro j k hj hk hjk
            rw [hget₁ j (by omega), hget₁ k (by omega)]
            split
            · split
              · exact hpw j k (by omega) (by omega) hjk
              · exact hpw j (k + 1) (by omega) (by omega) (by omega)
            · split
              · exact hpw (j + 1) k (by omega) (by omega) (by omega)
              · exact hpw (j + 1) (k + 1) (by omega) (by omega) (by omega)
          have hoth := hlv i hi
          -- the inner re-entrant call
          split at hok
          · rename_i e hinner
            exact absurd hok (by simp)
          · rename_i s₂ r₂ hinner
            have hspec₁ := ih s₁
              ⟨min r.start (s.getRange i).start, max r.stop (s.getRange i).stop⟩
              0 s₁.idx s₂ r₂ hlen₁ (by omega) (le_refl _) hlv₁ hpw₁
              (by dsimp only; omega) (by dsimp only; omega)
              (Or.inl ⟨rfl, by omega⟩) hinner
            obtain ⟨hlen₂, hidx₂, hlv₂, hpw₂, hr₂v, hr₂m, hunt₂, hun₂⟩ := hspec₁
            -- the continuation of the outer loop, now in mode B
            have hspec₂ := ih s₂ r₂ (i + 1) bound s' r' hlen₂ hb (by omega)
              hlv₂ hpw₂ hr₂v hr₂m (Or.inr hunt₂) hok
            obtain ⟨hlen', hidx', hlv', hpw', hr'v, hr'm, hunt', hun'⟩ := hspec₂
            refine ⟨hlen', by omega, hlv', hpw', hr'v, hr'm, hunt', ?_⟩
            intro x
            rw [hun' x, hun₂ x]
            -- bridge (r₁ ∪ s₁) with (r ∪ s)
            have hhull := hull_touch_union r (s.getRange i) hT hrm hoth.2 x
            constructor
            · rintro (hx | ⟨j, hj, hx⟩)
              · rcases hhull.mp hx with h | h
                · exact Or.inl h
                · exact Or.inr ⟨i, hi, h⟩
              · rw [hget₁ j (by omega)] at hx
                by_cases hji : j < i
                · exact Or.inr ⟨j, by omega, by rwa [if_pos hji] at hx⟩
                · exact Or.inr ⟨j + 1, by omega, by rwa [if_neg hji] at hx⟩
            · rintro (hx | ⟨k, hk, hx⟩)
              · exact Or.inl (hhull.mpr (Or.inl hx))
              · by_cases hki : k = i
                · subst hki
                  exact Or.inl (hhull.mpr (Or.inr hx))
                · by_cases hklt : k < i
                  · refine Or.inr ⟨k, by omega, ?_⟩
                    rw [hget₁ k (by omega), if_pos hklt]
                    exact hx
                  · refine Or.inr ⟨k - 1, by omega, ?_⟩
                    rw [hget₁ (k - 1) (by omega), if_neg (by omega),
                      show k - 1 + 1 = k by omega]
                    exact hx
      · -- `other` does not touch `r`: continue the scan
        rename_i hT
        apply ih s r (i + 1) bound s' r' hlen hb hib hlv hpw hrv hrm ?_ hok
        rcases hmode with ⟨hA, hA2⟩ | hB
        · refine Or.inl ⟨hA, fun j hj => ?_⟩
          by_cases hji : j < i
          · exact hA2 j hji
          · rw [show j = i by omega]
            simpa using hT
        · exact Or.inr hB

/-- Specification of a successful `RangeSet::insert` on a well-formed
set: the result is well-formed again and its live union is the old
union extended by the inserted range. -/
theorem insert_spec (s : RangeSet) (r : RSRange) (s'' : RangeSet)
    (hlen : s.ranges.length = 32) (hidx : s.idx ≤ 32)
    (hlv : LiveValid s) (hpw : PairwiseNT s) (hrm : r.stop ≤ USIZE_MAX)
    (hok : s.insert r = .ok s'') :
    s''.ranges.length = 32 ∧ s''.idx ≤ 32 ∧ LiveValid s'' ∧ PairwiseNT s'' ∧
    (∀ x, liveMem x s'' ↔ (inRange x r ∨ liveMem x s)) := by
  unfold RangeSet.insert at hok
  split at hok
  · exact absurd hok (by simp)
  · rename_i hvr
    split at hok
    · exact absurd hok (by simp)
    · rename_i s₁ r₁ hml
      split at hok
      · exact absurd hok (by simp)
      · rename_i hfull
        simp only [Except.ok.injEq] at hok
        subst hok
        have hspec := mergeLoop_spec RangeSet.INSERT_FUEL s r 0 s.idx s₁ r₁ hlen hidx
          (le_refl _) hlv hpw (by omega) hrm (Or.inl ⟨rfl, by omega⟩) hml
        obtain ⟨hlen₁, hidx₁, hlv₁, hpw₁, hr₁v, hr₁m, hunt₁, hun₁⟩ := hspec
        have hfull' : s₁.idx < 32 := by
          unfold RANGE_COUNT at hfull
          omega
        have hget : ∀ j, (RangeSet.mk (s₁.ranges.set s₁.idx r₁) (s₁.idx + 1)).getRange j
            = if j = s₁.idx then r₁ else s₁.getRange j := by
          intro j
          unfold RangeSet.getRange
          dsimp only
          by_cases hj : j = s₁.idx
          · rw [hj, if_pos rfl, getD_set_self _ _ _ _ (by omega)]
          · rw [if_neg hj, getD_set_ne _ _ _ _ _ (by omega)]
        refine ⟨by simp [hlen₁], by dsimp only; omega, ?_, ?_, ?_⟩
        · intro j hj
          rw [hget j]
          by_cases hje : j = s₁.idx
          · rw [if_pos hje]
            exact ⟨hr₁v, hr₁m⟩
          · rw [if_neg hje]
            dsimp only at hj
            exact hlv₁ j (by omega)
        · intro j k hj hk hjk
          rw [hget j, hget k]
          dsimp only at hj hk
          by_cases hje : j = s₁.idx
          · rw [if_pos hje, if_neg (by omega)]
            exact hunt₁ k (by omega)
          · rw [if_neg hje]
            by_cases hke : k = s₁.idx
            · rw [if_pos hke, touches_symm]
              exact hunt₁ j (by omega)
            · rw [if_neg hke]
              exact hpw₁ j k (by omega) (by omega) hjk
        · intro x
          rw [← hun₁ x]
          unfold liveMem
          constructor
          · rintro ⟨j, hj, hx⟩
            rw [hget j] at hx
            dsimp only at hj
            by_cases hje : j = s₁.idx
            · rw [if_pos hje] at hx
              exact Or.inl hx
            · rw [if_neg hje] at hx
              exact Or.inr ⟨j, by omega, hx⟩
          · rintro (hx | ⟨j, hj, hx⟩)
            · refine ⟨s₁.idx, by dsimp only; omega, ?_⟩
              rw [hget s₁.idx, if_pos rfl]
              exact hx
            · refine ⟨j, by dsimp only; omega, ?_⟩
              rw [hget j, if_neg (by omega)]
              exact hx

/-- Each member of `as_slice` sits at a live index. -/
theorem mem_asSlice_getRange (s : RangeSet) (a : RSRange) (h : a ∈ s.asSlice)
    (hle : s.idx ≤ s.ranges.length) :
    ∃ j, j < s.idx ∧ s.getRange j = a := by
  obtain ⟨j, hj, he⟩ := List.mem_iff_getElem.mp h
  have hjt : j < s.idx := by
    unfold RangeSet.asSlice at hj
    simp at hj
    omega
  refine ⟨j, hjt, ?_⟩
  unfold RangeSet.getRange
  rw [List.getD_eq_getElem?_getD, List.getElem?_eq_getElem (by omega),
    Option.getD_some]
  unfold RangeSet.asSlice at he
  rw [List.getElem_take] at he
  exact he

/-- Specification of a successful insertion sequence on a well-formed
set. -/
theorem insertAll_spec (rs : List RSRange) :
    ∀ (s s' : RangeSet),
    s.ranges.length = 32 → s.idx ≤ 32 → LiveValid s → PairwiseNT s →
    (rs.all fun q => q.stop ≤ USIZE_MAX) = true →
    s.insertAll rs = .ok s' →
    s'.ranges.length = 32 ∧ s'.idx ≤ 32 ∧ LiveValid s' ∧ PairwiseNT s' ∧
    (∀ x, liveMem x s' ↔ ((∃ q ∈ rs, inRange x q) ∨ liveMem x s)) := by
  induction rs with
  | nil =>
    intro s s' hlen hidx hlv hpw _ hok
    unfold RangeSet.insertAll at hok
    simp only [Except.ok.injEq] at hok
    subst hok
    exact ⟨hlen, hidx, hlv, hpw, fun x => by simp⟩
  | cons q qs ihq =>
    intro s s' hlen hidx hlv hpw hall hok
    unfold RangeSet.insertAll at hok
    split at hok
    · exact absurd hok (by simp)
    · rename_i s₁ hins
      simp only [List.all_cons, Bool.and_eq_true] at hall
      have hq : q.stop ≤ USIZE_MAX := by
        simpa using hall.1
      obtain ⟨hlen₁, hidx₁, hlv₁, hpw₁, hun₁⟩ :=
        insert_spec s q s₁ hlen hidx hlv hpw hq hins
      obtain ⟨hlen', hidx', hlv', hpw', hun'⟩ :=
        ihq s₁ s' hlen₁ hidx₁ hlv₁ hpw₁ hall.2 hok
      refine ⟨hlen', hidx', hlv', hpw', fun x => ?_⟩
      rw [hun' x, hun₁ x]
      simp only [List.mem_cons]
      constructor
      · rintro (⟨q', hq', hx⟩ | hx | hx)
        · exact Or.inl ⟨q', Or.inr hq', hx⟩
        · exact Or.inl ⟨q, Or.inl rfl, hx⟩
        · exact Or.inr hx
      · rintro (⟨q', hq'', hx⟩ | hx)
        · rcases hq'' with hq'' | hq''
          · subst hq''
            exact Or.inr (Or.inl hx)
          · exact Or.inl ⟨q', hq'', hx⟩
        · exact Or.inr (Or.inr hx)

/-- Claim C7 (amended): when every insertion of the sequence succeeds,
the stored intervals afterwards are pairwise non-overlapping and
non-adjacent, and their union equals the union of the inserted
intervals.  The success hypothesis is necessary: the claim as stated
quantifies over every sequence of at most 32 valid ranges, but the
stale loop bound of `merge_blocks` makes some such sequences panic
instead of returning a set at all. -/
theorem insertAll_disjoint_union (rs : List RSRange) (s' : RangeSet)
    (hall : (rs.all fun q => q.stop ≤ USIZE_MAX) = true)
    (hok : RangeSet.new.insertAll rs = .ok s') :
    (∀ a ∈ s'.asSlice, ∀ b ∈ s'.asSlice, a ≠ b →
      rsOverlaps a b = false ∧ a.stop + 1 ≠ b.start) ∧
    (∀ x, inSet x s' ↔ ∃ q ∈ rs, inRange x q) := by
  have hnewlen : RangeSet.new.ranges.length = 32 := by
    simp [RangeSet.new, RANGE_COUNT]
  have hnewidx : RangeSet.new.idx = 0 := rfl
  obtain ⟨hlen', hidx', hlv', hpw', hun'⟩ :=
    insertAll_spec rs RangeSet.new s' hnewlen (by omega)
      (fun j hj => absurd hj (by omega)) (fun j k hj _ _ => absurd hj (by omega))
      hall hok
  constructor
  · intro a ha b hb hab
    obtain ⟨j, hj, hja⟩ := mem_asSlice_getRange s' a ha (by omega)
    obtain ⟨k, hk, hkb⟩ := mem_asSlice_getRange s' b hb (by omega)
    have hjk : j ≠ k := fun he => hab (by rw [← hja, ← hkb, he])
    have hT := hpw' j k hj hk hjk
    rw [hja, hkb] at hT
    have hav := hlv' j hj
    rw [hja] at hav
    have hbv := hlv' k hk
    rw [hkb] at hbv
    exact not_touches_separated a b hT hav.1 hav.2 hbv.1 hbv.2
  · intro x
    rw [← liveMem_iff_inSet x s' (by omega), hun' x]
    simp [liveMem, hnewidx]

set_option maxRecDepth 8192 in
/-- Witness: inserting the two separated ranges of `rs7Input` into an
empty set succeeds, and the two stored ranges neither overlap nor are
adjacent. -/
theorem insertAll_disjoint_union_witness :
    (rs7Input.all fun q => q.stop ≤ USIZE_MAX) = true ∧
    (rsOverlaps ⟨0, 9⟩ ⟨20, 29⟩ = false ∧
      (⟨0, 9⟩ : RSRange).stop + 1 ≠ (⟨20, 29⟩ : RSRange).start) := by
  have h := insertAll_disjoint_union rs7Input rs7Set (by decide) (by rfl)
  exact ⟨by decide, h.1 ⟨0, 9⟩ (by decide) ⟨20, 29⟩ (by decide) (by decide)⟩

set_option maxRecDepth 8192 in
/-- Counterexample to C7 as stated: a sequence of four valid ranges
(far fewer than 32) on which the insertion sequence panics in
`self.remove(idx).unwrap()` instead of producing a set: after the
fourth range has been merged with all three stored ranges, the loop
keeps scanning up to its stale bound and meets a stale slot that
touches the widened range at an index that is no longer live. -/
theorem insert_sequence_panics :
    (([⟨0, 9⟩, ⟨20, 29⟩, ⟨40, 49⟩, ⟨5, 45⟩] : List RSRange).all
      fun q => q.start ≤ q.stop && q.stop ≤ USIZE_MAX) = true ∧
    ([⟨0, 9⟩, ⟨20, 29⟩, ⟨40, 49⟩, ⟨5, 45⟩] : List RSRange).length ≤ 32 ∧
    rsPanicTrace = .error .panicOOB :=
  ⟨by decide, by decide, by rfl⟩

end Windy
